import Mathlib

/-!
Verification of the golden-thread archive engine against its specification.

The development shallowly embeds the relevant Rust code:
byte streams become `List Nat` (one `Nat` per byte), SQL tables become
lists of row structures, `ORDER BY` becomes `List.insertionSort` with the
query's key, and fallible operations return `Option`/`Except`.  The
AES-256-GCM primitive is treated as a parameter pair `aeadSeal`/`aeadOpen`,
quantified in the theorems together with the two facts the proofs need of
it: decryption inverts encryption under the same nonce, and a sealed
chunk is exactly 16 bytes (the tag) longer than its plaintext.
-/

namespace GoldenThread

/-! ## Byte-level utilities (src/core/src/crypto.rs constants and helpers) -/

/-- The 4 magic bytes `GTAT` (crypto.rs `MAGIC`). -/
def MAGIC : List Nat := [71, 84, 65, 84]

/-- Container version byte (crypto.rs `VERSION`). -/
def VERSION : Nat := 1

/-- crypto.rs `DEFAULT_CHUNK_SIZE` = 1 MiB. -/
def DEFAULT_CHUNK_SIZE : Nat := 1024 * 1024

/-- crypto.rs `MAX_CHUNK_SIZE` = 8 MiB. -/
def MAX_CHUNK_SIZE : Nat := 8 * 1024 * 1024

/-- crypto.rs `TAG_LEN`: AES-GCM tag length in bytes. -/
def TAG_LEN : Nat := 16

/-- crypto.rs `HEADER_LEN`: 4 magic + 1 version + 4 chunk size + 12 nonce. -/
def HEADER_LEN : Nat := 21

/-- Little-endian 4-byte encoding of a `u32` (crypto.rs `write_header`,
`(chunk_size as u32).to_le_bytes()`). -/
def le32 (n : Nat) : List Nat :=
  [n % 256, n / 256 % 256, n / 65536 % 256, n / 16777216 % 256]

/-- Little-endian 4-byte decode (crypto.rs `read_header`,
`u32::from_le_bytes`). -/
def le32decode (bs : List Nat) : Nat :=
  match bs with
  | [b0, b1, b2, b3] => b0 + 256 * b1 + 65536 * b2 + 16777216 * b3
  | _ => 0

/-- Big-endian 8-byte encoding of a `u64` (crypto.rs `counter.to_be_bytes()`). -/
def be64 (n : Nat) : List Nat :=
  [n / 72057594037927936 % 256, n / 281474976710656 % 256,
   n / 1099511627776 % 256, n / 4294967296 % 256,
   n / 16777216 % 256, n / 65536 % 256, n / 256 % 256, n % 256]

/-- crypto.rs `nonce_for_chunk`: keep the first 4 nonce bytes, overwrite the
last 8 with the big-endian chunk counter. -/
def nonce_for_chunk (base : List Nat) (counter : Nat) : List Nat :=
  base.take 4 ++ be64 counter

/-! ## AEAD container: streaming encryption (crypto.rs) -/

/-- crypto.rs `write_header`: magic, version byte, little-endian chunk size,
12-byte base nonce. -/
def write_header (base : List Nat) (chunk_size : Nat) : List Nat :=
  MAGIC ++ [VERSION] ++ le32 chunk_size ++ base

/-- The chunking loop of crypto.rs `encrypt_stream_internal`.  Each
iteration reads up to `chunk_size` plaintext bytes (on a byte list the
`reader.read` fills the whole buffer unless the stream is exhausted),
feeds them to the hasher, seals them under the per-chunk nonce, and
appends the ciphertext.  Returns (ciphertext payload, bytes fed to the
hasher).  `fuel` bounds the iteration count; `fuel = b.length` is always
enough because every iteration consumes at least one byte. -/
def encryptChunks (aeadSeal : List Nat → List Nat → List Nat) (base : List Nat)
    (chunk_size : Nat) : Nat → Nat → List Nat → List Nat × List Nat
  | _, _, [] => ([], [])
  | 0, _, _ :: _ => ([], [])
  | fuel + 1, counter, b@(_ :: _) =>
    let chunk := b.take chunk_size
    let rest := encryptChunks aeadSeal base chunk_size fuel (counter + 1) (b.drop chunk_size)
    (aeadSeal (nonce_for_chunk base counter) chunk ++ rest.1, chunk ++ rest.2)

/-- crypto.rs `encrypt_stream_internal`: validates the chunk size, writes
the header, then the sealed chunks.  Returns (output file bytes, bytes fed
to the SHA-256 hasher, total plaintext bytes consumed). -/
def encrypt_stream_internal (aeadSeal : List Nat → List Nat → List Nat)
    (base : List Nat) (chunk_size : Nat) (b : List Nat) :
    Option (List Nat × List Nat × Nat) :=
  if chunk_size = 0 ∨ chunk_size > MAX_CHUNK_SIZE then none
  else
    let enc := encryptChunks aeadSeal base chunk_size b.length 0 b
    some (write_header base chunk_size ++ enc.1, enc.2, b.length)

/-- crypto.rs `encrypt_stream` (default chunk size, no hasher). -/
def encrypt_stream (aeadSeal : List Nat → List Nat → List Nat)
    (base : List Nat) (b : List Nat) : Option (List Nat × Nat) :=
  match encrypt_stream_internal aeadSeal base DEFAULT_CHUNK_SIZE b with
  | none => none
  | some (file, _, total) => some (file, total)

/-- crypto.rs `encrypt_stream_with_hash`: the streamed SHA-256 state is the
sequence of bytes fed to the hasher via `h.update(&buf[..n])`; finalizing
it yields the hex digest of exactly that byte sequence, modelled by
applying the abstract digest function `hexSha256` to the accumulated
bytes. -/
def encrypt_stream_with_hash (aeadSeal : List Nat → List Nat → List Nat)
    (hexSha256 : List Nat → String) (base : List Nat) (b : List Nat) :
    Option (String × Nat) :=
  match encrypt_stream_internal aeadSeal base DEFAULT_CHUNK_SIZE b with
  | none => none
  | some (_, hashed, total) => some (hexSha256 hashed, total)

/-! ## AEAD container: streaming decryption (crypto.rs) -/

/-- crypto.rs `read_header`: reads 4 magic bytes, the version byte, the
little-endian chunk size and the 12-byte nonce, validating each.  A file
shorter than 21 bytes makes one of the `read_exact` calls fail.  Returns
(chunk size, base nonce, remaining payload). -/
def read_header (file : List Nat) : Option (Nat × List Nat × List Nat) :=
  if file.length < HEADER_LEN then none
  else if file.take 4 ≠ MAGIC then none
  else if (file.drop 4).take 1 ≠ [VERSION] then none
  else
    let chunk_size := le32decode ((file.drop 5).take 4)
    if chunk_size = 0 ∨ chunk_size > MAX_CHUNK_SIZE then none
    else some (chunk_size, (file.drop 9).take 12, file.drop HEADER_LEN)

/-- The chunk loop of crypto.rs `decrypt_stream`.  Each iteration fills a
`chunk_size + TAG_LEN` buffer (partially at end of stream), stops if
nothing was read, opens the chunk under the per-chunk nonce, appends the
plaintext, and breaks after a short read.  `fuel = payload.length` is
always enough because every iteration consumes at least one byte. -/
def decryptChunks (aeadOpen : List Nat → List Nat → Option (List Nat))
    (base : List Nat) (chunk_size : Nat) :
    Nat → Nat → List Nat → Option (List Nat)
  | _, _, [] => some []
  | 0, _, _ :: _ => none
  | fuel + 1, counter, p@(_ :: _) =>
    let ct := p.take (chunk_size + TAG_LEN)
    match aeadOpen (nonce_for_chunk base counter) ct with
    | none => none
    | some pt =>
      if p.length < chunk_size + TAG_LEN then some pt
      else
        match decryptChunks aeadOpen base chunk_size fuel (counter + 1)
            (p.drop (chunk_size + TAG_LEN)) with
        | none => none
        | some rest => some (pt ++ rest)

/-- crypto.rs `decrypt_stream`: parse the header, then decrypt the chunk
stream.  Returns (plaintext bytes, total length written). -/
def decrypt_stream (aeadOpen : List Nat → List Nat → Option (List Nat))
    (file : List Nat) : Option (List Nat × Nat) :=
  match read_header file with
  | none => none
  | some (chunk_size, base, payload) =>
    match decryptChunks aeadOpen base chunk_size payload.length 0 payload with
    | none => none
    | some pt => some (pt, pt.length)

/-! ## Plaintext length introspection and parallel decryption (crypto.rs) -/

/-- crypto.rs `encrypted_plaintext_len`: rejects files shorter than
`HEADER_LEN + TAG_LEN`, parses the header, then derives the plaintext
length from the payload size.  Note the `payload_len == 0` branch is
unreachable: the size check already rejected every file whose payload is
shorter than `TAG_LEN`. -/
def encrypted_plaintext_len (file : List Nat) : Option Nat :=
  if file.length < HEADER_LEN + TAG_LEN then none
  else
    match read_header file with
    | none => none
    | some (chunk_size, _, payload) =>
      let ct_chunk_size := chunk_size + TAG_LEN
      if payload.length = 0 then some 0
      else
        let full_chunks := payload.length / ct_chunk_size
        let remainder := payload.length % ct_chunk_size
        if 0 < remainder ∧ remainder < TAG_LEN then none
        else some (full_chunks * chunk_size +
          (if remainder = 0 then 0 else remainder - TAG_LEN))

/-- File-offset write used by the parallel decrypt workers
(crypto.rs `write_exact_at`): overwrite `buf` starting at `off`. -/
def writeBytes (buf : List Nat) (off : Nat) (data : List Nat) : List Nat :=
  buf.take off ++ data ++ buf.drop (off + data.length)

/-- The per-chunk work of the crypto.rs `decrypt_file_parallel` workers,
iterated over chunk indices.  Each worker claims the next index from a
shared atomic counter, positionally reads its ciphertext range, decrypts
it, and positionally writes its plaintext range; because the byte ranges
of distinct indices are disjoint, the final file contents equal the result
of applying the writes in index order, independent of thread scheduling,
which is what this function computes.  `rem` counts the chunks still to
process. -/
def parallelChunks (aeadOpen : List Nat → List Nat → Option (List Nat))
    (file base : List Nat) (chunk_size total_chunks total_plain : Nat) :
    Nat → Nat → List Nat → Option (List Nat)
  | 0, _, buf => some buf
  | rem + 1, idx, buf =>
    let plain_len := if idx = total_chunks - 1
      then total_plain - idx * chunk_size else chunk_size
    let ct_len := plain_len + TAG_LEN
    let offset := HEADER_LEN + idx * (chunk_size + TAG_LEN)
    if file.length < offset + ct_len then none
    else
      match aeadOpen (nonce_for_chunk base idx) ((file.drop offset).take ct_len) with
      | none => none
      | some pt =>
        parallelChunks aeadOpen file base chunk_size total_chunks total_plain
          rem (idx + 1) (writeBytes buf (idx * chunk_size) pt)

/-- crypto.rs `decrypt_file_parallel`: reject `workers == 0`, parse the
header, compute the plaintext length (failing exactly when
`encrypted_plaintext_len` fails), pre-size the zero-filled output, and
run the workers over the chunk indices. -/
def decrypt_file_parallel (aeadOpen : List Nat → List Nat → Option (List Nat))
    (file : List Nat) (workers : Nat) : Option (List Nat × Nat) :=
  if workers = 0 then none
  else
    match read_header file with
    | none => none
    | some (chunk_size, base, _) =>
      match encrypted_plaintext_len file with
      | none => none
      | some total_plain =>
        if total_plain = 0 then some ([], 0)
        else
          let total_chunks := (total_plain + chunk_size - 1) / chunk_size
          match parallelChunks aeadOpen file base chunk_size total_chunks
              total_plain total_chunks 0 (List.replicate total_plain 0) with
          | none => none
          | some out => some (out, total_plain)

/-! ## Mock AEAD used by concrete witnesses and counterexamples.
Sealing appends a fixed 16-byte tag; opening checks and strips it.  This
satisfies the two AEAD facts quantified in the theorems (inversion and
the +16 length law). -/

/-- Witness AEAD seal: append a constant 16-byte tag. -/
def mockSeal (_nonce pt : List Nat) : List Nat :=
  pt ++ List.replicate TAG_LEN 7

/-- Witness AEAD open: verify and strip the constant tag. -/
def mockOpen (_nonce ct : List Nat) : Option (List Nat) :=
  if TAG_LEN ≤ ct.length ∧ ct.drop (ct.length - TAG_LEN) = List.replicate TAG_LEN 7
  then some (ct.take (ct.length - TAG_LEN)) else none

/-! ## SQLite TEXT comparison

Message, attachment and tag ids are SQLite `TEXT` values compared under
the BINARY collation (byte order).  All ids in this code base are ASCII
(`sms:10`, `att:...`, `tag:...`), where byte order coincides with
code-point order, embedded below on the code points of the string. -/

/-- The code points of a string, the byte view of an ASCII SQLite TEXT. -/
def strBytes (s : String) : List Nat := s.data.map Char.toNat

/-- Byte-wise (memcmp) strict order, SQLite's BINARY collation. -/
def bytesLt : List Nat → List Nat → Bool
  | [], [] => false
  | [], _ :: _ => true
  | _ :: _, [] => false
  | a :: as, b :: bs => decide (a < b) || (decide (a = b) && bytesLt as bs)

/-- SQLite BINARY comparison of two TEXT ids. -/
def idLt (a b : String) : Bool := bytesLt (strBytes a) (strBytes b)

/-! ## Query layer data model (src/core/src/models.rs, migrations.rs)

`sort_ts` is a physical column, but migration 6 back-fills it with
`COALESCE(sent_at, received_at, 0)`, the migration-7 trigger enforces the
same value on insert, and the importer's `insert_message_batch` passes
exactly `row.sent_at.or(row.received_at).unwrap_or(0)`; the column is
therefore modelled as the derived value `coalesce_ts`. -/

/-- models.rs `MessageRow` (one row of the `messages` table). -/
structure MessageRow where
  id : String
  thread_id : String
  sender_id : Option String := none
  sent_at : Option Int := none
  received_at : Option Int := none
  message_type : String := ""
  body : Option String := none
  is_outgoing : Bool := false
  is_view_once : Bool := false
  quote_message_id : Option String := none
  metadata_json : Option String := none
deriving DecidableEq

/-- `COALESCE(sent_at, received_at, 0)` — the stored `sort_ts` value, and
also the query.rs `msg_ts` closure `sent_at.or(received_at).unwrap_or(0)`. -/
def coalesce_ts (m : MessageRow) : Int :=
  match m.sent_at with
  | some v => v
  | none => m.received_at.getD 0

/-- One row of `message_tags` (migrations.rs migration 3). -/
structure MessageTagRow where
  message_id : String
  tag_id : String
  tagged_at : Int
deriving DecidableEq

/-- The slice of a `threads` row the scrapbook join reads. -/
structure ThreadRow where
  id : String
  name : Option String := none
deriving DecidableEq

/-- models.rs `ScrapbookMessage`. -/
structure ScrapbookMessage where
  message : MessageRow
  thread_name : Option String
  is_discontinuous : Bool
deriving DecidableEq

/-! ## query.rs list_messages (backward pagination) -/

/-- `ORDER BY sort_ts DESC, id DESC`: row `a` may precede row `b`. -/
def msgDescLe (a b : MessageRow) : Bool :=
  decide (coalesce_ts b < coalesce_ts a) ||
    (decide (coalesce_ts a = coalesce_ts b) && (idLt b.id a.id || decide (a.id = b.id)))

/-- The `WHERE` cursor of query.rs `list_messages`:
`sort_ts < ?2 OR (sort_ts = ?2 AND id < ?3)`. -/
def beforeCursor (ts : Int) (id : String) (m : MessageRow) : Bool :=
  decide (coalesce_ts m < ts) || (decide (coalesce_ts m = ts) && idLt m.id id)

/-- query.rs `list_messages`: filter the thread by the optional cursor,
order by `(sort_ts DESC, id DESC)`, limit. -/
def list_messages (msgs : List MessageRow) (thread_id : String)
    (before_ts : Option Int) (before_id : Option String) (limit : Nat) :
    List MessageRow :=
  let pred : MessageRow → Bool := fun m =>
    match before_ts, before_id with
    | some ts, some id => decide (m.thread_id = thread_id) && beforeCursor ts id m
    | some ts, none => decide (m.thread_id = thread_id) && decide (coalesce_ts m < ts)
    | none, _ => decide (m.thread_id = thread_id)
  ((msgs.filter pred).insertionSort (fun a b => msgDescLe a b = true)).take limit

/-- The full thread in `(sort_ts DESC, id DESC)` order — the reference
list the pagination claim compares against. -/
def threadDesc (msgs : List MessageRow) (thread_id : String) : List MessageRow :=
  ((msgs.filter fun m => decide (m.thread_id = thread_id)).insertionSort
    (fun a b => msgDescLe a b = true))

/-- Repeated `list_messages` pagination: fetch a page, and if it is
non-empty continue from the `(sort_ts, id)` cursor of its last row.
`fuel` bounds the number of pages; the row count of the thread is always
enough. -/
def pagesFrom (msgs : List MessageRow) (thread_id : String) (limit : Nat) :
    Option (Int × String) → Nat → List MessageRow
  | _, 0 => []
  | cursor, fuel + 1 =>
    let page := match cursor with
      | none => list_messages msgs thread_id none none limit
      | some (ts, id) => list_messages msgs thread_id (some ts) (some id) limit
    match page.getLast? with
    | none => []
    | some last =>
      page ++ pagesFrom msgs thread_id limit (some (coalesce_ts last, last.id)) fuel

/-! ## query.rs scrapbook: are_messages_adjacent, list_scrapbook_messages -/

/-- The strict `(COALESCE(sent_at, received_at, 0), id)` timeline order of
the `m3` subquery in query.rs `are_messages_adjacent`. -/
def timelineLt (a b : MessageRow) : Bool :=
  decide (coalesce_ts a < coalesce_ts b) ||
    (decide (coalesce_ts a = coalesce_ts b) && idLt a.id b.id)

/-- query.rs `are_messages_adjacent`: count the pairs `(m1, m2)` with the
given ids in a shared thread such that some `m3` of that thread lies
strictly between them in the timeline order; adjacent iff the count is
zero. -/
def are_messages_adjacent (msgs : List MessageRow)
    (earlier_id later_id : String) : Bool :=
  let pairs := msgs.flatMap fun m1 => msgs.map fun m2 => (m1, m2)
  let hits := pairs.filter fun p =>
    decide (p.1.id = earlier_id) && decide (p.2.id = later_id) &&
    decide (p.1.thread_id = p.2.thread_id) &&
    (msgs.any fun m3 => decide (m3.thread_id = p.1.thread_id) &&
      timelineLt p.1 m3 && timelineLt m3 p.2)
  decide (hits.length = 0)

/-- The scrapbook SELECT join of query.rs `list_scrapbook_messages`: rows
`(message, thread name, tagged_at)` for the given tag. -/
def scrapbookJoin (msgs : List MessageRow) (mtags : List MessageTagRow)
    (threads : List ThreadRow) (tag_id : String) :
    List (MessageRow × Option String × Int) :=
  (mtags.filter fun mt => decide (mt.tag_id = tag_id)).flatMap fun mt =>
    (msgs.filter fun m => decide (m.id = mt.message_id)).flatMap fun m =>
      (threads.filter fun t => decide (t.id = m.thread_id)).map fun t =>
        (m, t.name, mt.tagged_at)

/-- `ORDER BY mt.tagged_at DESC, m.id DESC` over the joined rows. -/
def scrapDescLe (a b : MessageRow × Option String × Int) : Bool :=
  decide (b.2.2 < a.2.2) ||
    (decide (a.2.2 = b.2.2) && (idLt b.1.id a.1.id || decide (a.1.id = b.1.id)))

/-- The ordered, cursored, limited page of tagged messages. -/
def scrapbookPage (msgs : List MessageRow) (mtags : List MessageTagRow)
    (threads : List ThreadRow) (tag_id : String) (before_ts : Option Int)
    (before_id : Option String) (limit : Nat) :
    List (MessageRow × Option String × Int) :=
  let joined := scrapbookJoin msgs mtags threads tag_id
  let filtered := joined.filter fun r =>
    match before_ts, before_id with
    | some ts, some id =>
        decide (r.2.2 < ts) || (decide (r.2.2 = ts) && idLt r.1.id id)
    | some ts, none => decide (r.2.2 < ts)
    | none, _ => true
  (filtered.insertionSort (fun a b => scrapDescLe a b = true)).take limit

/-- The per-row discontinuity computation of query.rs
`list_scrapbook_messages`: for a same-thread previous result, order the
two messages by `msg_ts` alone — the previous row is taken as `earlier`
when the timestamps are equal (no id tie-break) — and negate
`are_messages_adjacent`; the first row and cross-thread transitions are
never discontinuous. -/
def scrapDisc (msgs : List MessageRow) :
    Option MessageRow → MessageRow → Bool
  | none, _ => false
  | some prev, m =>
    if prev.thread_id = m.thread_id then
      let ids := if coalesce_ts m < coalesce_ts prev
        then (m.id, prev.id) else (prev.id, m.id)
      ! are_messages_adjacent msgs ids.1 ids.2
    else false

/-- The discontinuity pass of query.rs `list_scrapbook_messages`: walk the
page keeping the previous row. -/
def scrapbookFlags (msgs : List MessageRow) :
    Option MessageRow → List (MessageRow × Option String × Int) →
    List ScrapbookMessage
  | _, [] => []
  | prev?, (m, tname, _) :: rest =>
    ⟨m, tname, scrapDisc msgs prev? m⟩ :: scrapbookFlags msgs (some m) rest

/-- query.rs `list_scrapbook_messages`. -/
def list_scrapbook_messages (msgs : List MessageRow)
    (mtags : List MessageTagRow) (threads : List ThreadRow) (tag_id : String)
    (before_ts : Option Int) (before_id : Option String) (limit : Nat) :
    List ScrapbookMessage :=
  scrapbookFlags msgs none
    (scrapbookPage msgs mtags threads tag_id before_ts before_id limit)

/-! ## query.rs media listings -/

/-- The columns of an `attachments` row the media queries read. -/
structure AttachmentRow where
  id : String
  message_id : String
  sha256 : String := ""
  mime : Option String := none
  size_bytes : Option Int := none
  size_bucket : Option Int := none
  original_filename : Option String := none
  kind : String := "file"
  width : Option Int := none
  height : Option Int := none
  duration_ms : Option Int := none
deriving DecidableEq

/-- `ORDER BY m.sent_at DESC NULLS LAST, a.id ASC` of query.rs `list_media`. -/
def mediaLe (x y : AttachmentRow × MessageRow) : Bool :=
  match x.2.sent_at, y.2.sent_at with
  | some a, some b =>
      decide (b < a) || (decide (a = b) && (idLt x.1.id y.1.id || decide (x.1.id = y.1.id)))
  | some _, none => true
  | none, some _ => false
  | none, none => idLt x.1.id y.1.id || decide (x.1.id = y.1.id)

/-- query.rs `list_media`: join attachments to their message, optional
thread filter, `ORDER BY m.sent_at DESC NULLS LAST, a.id ASC`, limit and
offset.  The rows are kept as (attachment, message) pairs; the Rust
`MediaRow` projection drops the message columns without reordering. -/
def list_media (atts : List AttachmentRow) (msgs : List MessageRow)
    (thread_id : Option String) (limit offset : Nat) :
    List (AttachmentRow × MessageRow) :=
  let joined := atts.flatMap fun a =>
    (msgs.filter fun m => decide (m.id = a.message_id)).map fun m => (a, m)
  let filtered := joined.filter fun x =>
    match thread_id with
    | none => true
    | some tid => decide (x.2.thread_id = tid)
  (((filtered.insertionSort (fun a b => mediaLe a b = true)).drop offset).take limit)

/-- `IFNULL(a.size_bytes, 0)` of query.rs `list_thread_media`. -/
def sizeVal (x : AttachmentRow × MessageRow) : Int := x.1.size_bytes.getD 0

/-- The `ORDER BY` selected by query.rs `list_thread_media` for each sort
mode: `size_asc`/`size_desc` order by size then message date DESC (no id
key); `date_asc` and the default `date_desc` order by message date with
`a.id ASC` as the secondary key. -/
def threadMediaLe (sort : String) (x y : AttachmentRow × MessageRow) : Bool :=
  if sort = "size_asc" then
    decide (sizeVal x < sizeVal y) ||
      (decide (sizeVal x = sizeVal y) &&
        (decide (coalesce_ts y.2 < coalesce_ts x.2) ||
          decide (coalesce_ts x.2 = coalesce_ts y.2)))
  else if sort = "size_desc" then
    decide (sizeVal y < sizeVal x) ||
      (decide (sizeVal x = sizeVal y) &&
        (decide (coalesce_ts y.2 < coalesce_ts x.2) ||
          decide (coalesce_ts x.2 = coalesce_ts y.2)))
  else if sort = "date_asc" then
    decide (coalesce_ts x.2 < coalesce_ts y.2) ||
      (decide (coalesce_ts x.2 = coalesce_ts y.2) &&
        (idLt x.1.id y.1.id || decide (x.1.id = y.1.id)))
  else
    decide (coalesce_ts y.2 < coalesce_ts x.2) ||
      (decide (coalesce_ts x.2 = coalesce_ts y.2) &&
        (idLt x.1.id y.1.id || decide (x.1.id = y.1.id)))

/-- query.rs `list_thread_media`: join, thread filter plus the optional
`(from_ts, to_ts, size_bucket)` filters on `COALESCE(m.sent_at,
m.received_at, 0)` and `a.size_bucket`, then the mode's ORDER BY, limit
and offset. -/
def list_thread_media (atts : List AttachmentRow) (msgs : List MessageRow)
    (thread_id : String) (from_ts to_ts : Option Int)
    (size_bucket : Option Int) (sort : String) (limit offset : Nat) :
    List (AttachmentRow × MessageRow) :=
  let joined := atts.flatMap fun a =>
    (msgs.filter fun m => decide (m.id = a.message_id)).map fun m => (a, m)
  let filtered := joined.filter fun x =>
    decide (x.2.thread_id = thread_id) &&
    (match from_ts with | none => true | some v => decide (v ≤ coalesce_ts x.2)) &&
    (match to_ts with | none => true | some v => decide (coalesce_ts x.2 ≤ v)) &&
    (match size_bucket with | none => true | some v => decide (x.1.size_bucket = some v))
  (((filtered.insertionSort (fun a b => threadMediaLe sort a b = true)).drop offset).take limit)

/-! ## query.rs set_message_tags (C8)

`db.rs` opens the connection with `PRAGMA foreign_keys = ON`, and
migration 3 declares `message_tags (message_id, tag_id)` as the primary
key with foreign keys into `messages` and `tags`; an INSERT therefore
fails when either parent row is missing or the pair already exists.
`set_message_tags` issues a bare DELETE followed by one INSERT per tag id
on the shared connection — there is no surrounding transaction. -/

/-- The tables touched by `set_message_tags`: the parent ids and the
`message_tags` rows. -/
structure TagDbState where
  message_ids : List String
  tag_ids : List String
  message_tags : List MessageTagRow
deriving DecidableEq

/-- One `INSERT INTO message_tags` under the schema's constraints. -/
def insert_message_tag (db : TagDbState) (mid tid : String) (now : Int) :
    Option TagDbState :=
  if mid ∈ db.message_ids ∧ tid ∈ db.tag_ids ∧
      ¬ (db.message_tags.any fun r => decide (r.message_id = mid) && decide (r.tag_id = tid)) = true
  then some { db with message_tags := db.message_tags ++ [⟨mid, tid, now⟩] }
  else none

/-- The insert loop of query.rs `set_message_tags`: one INSERT per tag id,
all with the same `now`; the first failure stops the loop, leaving the
statements already executed in place. -/
def setTagsLoop (mid : String) (now : Int) :
    TagDbState → List String → TagDbState × Option String
  | db, [] => (db, none)
  | db, t :: ts =>
    match insert_message_tag db mid t now with
    | some db1 => setTagsLoop mid now db1 ts
    | none => (db, some "constraint failed")

/-- query.rs `set_message_tags`: DELETE every row of the message, then
INSERT the given tag ids with one shared `tagged_at`.  Returns the final
database state and the error, if any. -/
def set_message_tags (db : TagDbState) (message_id : String)
    (tag_ids : List String) (now : Int) : TagDbState × Option String :=
  let db1 := { db with
    message_tags := db.message_tags.filter fun r => ! decide (r.message_id = message_id) }
  setTagsLoop message_id now db1 tag_ids

/-! ## importer.rs duplicate detection (C5) -/

/-- One row of the `imports` table as the duplicate check sees it. -/
structure ImportRow where
  id : String
  source_hash : String
  status : String
deriving DecidableEq

/-- `INSERT INTO imports` under migration 5's unconditional
`CREATE UNIQUE INDEX idx_imports_source_hash ON imports(source_hash)`:
the insert fails whenever any existing row — whatever its status —
already carries the same source_hash. -/
def insertImportRow (rows : List ImportRow) (row : ImportRow) :
    Except String (List ImportRow) :=
  if rows.any fun r => decide (r.source_hash = row.source_hash) then
    Except.error "UNIQUE constraint failed: imports.source_hash"
  else Except.ok (rows ++ [row])

/-- The duplicate-detection step of importer.rs
`import_backup_with_progress`: reject with the `already loaded` error
when a `status = 'success'` row shares the plan's source_hash, otherwise
attempt to insert the new `status = 'running'` row. -/
def import_backup_duplicate_check (rows : List ImportRow)
    (source_hash import_id : String) : Except String (List ImportRow) :=
  if rows.any fun r =>
      decide (r.source_hash = source_hash) && decide (r.status = "success") then
    Except.error "archive already loaded for this backup"
  else
    insertImportRow rows ⟨import_id, source_hash, "running"⟩

/-! ## importer/attachments.rs map_attachments (C9) -/

/-- attachments.rs `AttachmentJob`, built from one row of the foreign
`part`/`attachment` table (whichever exists — parts of both `sms` and
`mms` messages land in the same table). -/
structure AttachmentJob where
  mid : Int
  attachment_path : String
  mime : Option String := none
  data_size : Option Int := none
  file_name : Option String := none
  width : Option Int := none
  height : Option Int := none
  duration_ms : Option Int := none
deriving DecidableEq

/-- attachments.rs `SIZE_SMALL_MAX` (1 MiB − 1). -/
def SIZE_SMALL_MAX : Int := 1 * 1024 * 1024 - 1

/-- attachments.rs `SIZE_MEDIUM_MAX` (10 MiB − 1). -/
def SIZE_MEDIUM_MAX : Int := 10 * 1024 * 1024 - 1

/-- attachments.rs `bucket_from_size`. -/
def bucket_from_size (size : Int) : Int :=
  if size ≤ SIZE_SMALL_MAX then 0
  else if size ≤ SIZE_MEDIUM_MAX then 1
  else 2

/-- The row a worker thread of attachments.rs `map_attachments` builds for
a job whose file exists and encrypts successfully: the message reference
is namespaced `mms:<mid>` unconditionally, and the row id is
`att:<message_id>:<sha256>`. -/
def attachmentRowOfJob (job : AttachmentJob) (sha256 : String)
    (file_size : Int) (inferredKind : String) : AttachmentRow :=
  let size_bytes := some (job.data_size.getD file_size)
  let message_id := "mms:" ++ toString job.mid
  { id := "att:" ++ message_id ++ ":" ++ sha256
    message_id := message_id
    sha256 := sha256
    mime := job.mime
    size_bytes := size_bytes
    size_bucket := size_bytes.map bucket_from_size
    original_filename := job.file_name
    kind := inferredKind
    width := job.width
    height := job.height
    duration_ms := job.duration_ms }

/-- The rows the worker threads of `map_attachments` emit, with the
filesystem and the encryption abstracted: `fsExists` says whether the
extracted blob is present (else the job counts as missing and is
skipped), and `copyResult` is the `(sha256, file size, inferred kind)` of
a successful `copy_attachment`, or `none` for a hard error, which aborts
the worker — rows emitted before an abort still have this shape. -/
def map_attachments_rows (fsExists : String → Bool)
    (copyResult : String → Option (String × Int × String))
    (jobs : List AttachmentJob) : List AttachmentRow :=
  jobs.filterMap fun job =>
    if fsExists job.attachment_path then
      match copyResult job.attachment_path with
      | some (sha256, size, kind) => some (attachmentRowOfJob job sha256 size kind)
      | none => none
    else none

/-! ## media_ops.rs MediaCache (C10) -/

/-- media_ops.rs `MediaCacheEntry`. -/
structure MediaCacheEntry where
  path : String
  last_access : Nat
deriving DecidableEq

/-- media_ops.rs `MediaCache`: keyed preview entries plus the pending
eviction queue. -/
structure MediaCache where
  entries : List (String × MediaCacheEntry)
  evicted : List String
deriving DecidableEq

/-- media_ops.rs `MediaCache::clear`: delete every entry's preview file,
empty the map, and empty the eviction queue — nothing is recorded in
`evicted`.  Returns the new state and the list of files removed. -/
def MediaCache.clear (c : MediaCache) : MediaCache × List String :=
  (⟨[], []⟩, c.entries.map fun e => e.2.path)

/-- media_ops.rs `MediaCache::drain_evictions`:
`std::mem::take(&mut self.evicted)`. -/
def MediaCache.drain_evictions (c : MediaCache) : List String × MediaCache :=
  (c.evicted, { c with evicted := [] })

/-! ## Concrete archive states used by witnesses and counterexamples -/

/-- Three messages of one thread; `a` and `b` share a timestamp. -/
def wMsgs : List MessageRow :=
  [{ id := "a", thread_id := "t", sent_at := some 5 },
   { id := "b", thread_id := "t", sent_at := some 5 },
   { id := "c", thread_id := "t", received_at := some 9 }]

/-- Three same-thread messages with one shared timestamp — `a`, `b`, `c`
all at `sort_ts` 5 (ids in that byte order). -/
def cexMsgs : List MessageRow :=
  [{ id := "a", thread_id := "t", sent_at := some 5 },
   { id := "b", thread_id := "t", sent_at := some 5 },
   { id := "c", thread_id := "t", sent_at := some 5 }]

/-- Tag `a` first, then `c`: in the scrapbook (tagged_at DESC) `c`
precedes `a`. -/
def cexTags : List MessageTagRow := [⟨"a", "T", 1⟩, ⟨"c", "T", 2⟩]

/-- The single thread of the scrapbook examples. -/
def cexThreads : List ThreadRow := [⟨"t", some "thread"⟩]

/-- Messages at distinct timestamps for the scrapbook witness: `m1@1`,
`m2@3`, `m3@5` in thread `t1`. -/
def wScrapMsgs : List MessageRow :=
  [{ id := "m1", thread_id := "t1", sent_at := some 1 },
   { id := "m2", thread_id := "t1", sent_at := some 3 },
   { id := "m3", thread_id := "t1", sent_at := some 5 }]

/-- Tag `m1` then `m3`, skipping `m2`. -/
def wScrapTags : List MessageTagRow := [⟨"m1", "T", 10⟩, ⟨"m3", "T", 20⟩]

/-- The thread row of the scrapbook witness. -/
def wScrapThreads : List ThreadRow := [⟨"t1", some "one"⟩]

/-- C7 data: a message with `sent_at = NULL` but a late `received_at`
(stored `sort_ts` 100). -/
def c7M1 : MessageRow := { id := "m1", thread_id := "t", received_at := some 100 }

/-- C7 data: a message sent early (`sort_ts` 5). -/
def c7M2 : MessageRow := { id := "m2", thread_id := "t", sent_at := some 5 }

/-- C7 data: the attachment of `c7M1`. -/
def c7A1 : AttachmentRow := { id := "a1", message_id := "m1" }

/-- C7 data: the attachment of `c7M2`. -/
def c7A2 : AttachmentRow := { id := "a2", message_id := "m2" }

/-- C7 data: a message carrying two same-size attachments. -/
def c7M3 : MessageRow := { id := "m3", thread_id := "t", sent_at := some 50 }

/-- C7 data: first of two attachments tying on size and date. -/
def c7B1 : AttachmentRow :=
  { id := "b1", message_id := "m3", size_bytes := some 10, size_bucket := some 0 }

/-- C7 data: second of two attachments tying on size and date. -/
def c7B2 : AttachmentRow :=
  { id := "b2", message_id := "m3", size_bytes := some 10, size_bucket := some 0 }

/-- C9 data: one attachment job from the foreign part table. -/
def wJob : AttachmentJob := { mid := 7, attachment_path := "p" }

/-! # Theorems

## Crypto container lemmas -/

theorem le32decode_le32 (n : Nat) (h : n < 4294967296) :
    le32decode (le32 n) = n := by
  simp only [le32, le32decode]
  omega

theorem write_header_cons (base : List Nat) (cs : Nat) :
    write_header base cs =
      71 :: 84 :: 65 :: 84 :: 1 :: (cs % 256) :: (cs / 256 % 256) ::
        (cs / 65536 % 256) :: (cs / 16777216 % 256) :: base := by
  simp [write_header, MAGIC, VERSION, le32]

theorem read_header_write_header (base payload : List Nat) (cs : Nat)
    (hb : base.length = 12) (h1 : 0 < cs) (h2 : cs ≤ MAX_CHUNK_SIZE) :
    read_header (write_header base cs ++ payload) = some (cs, base, payload) := by
  rw [write_header_cons]
  have hcs32 : cs < 4294967296 := by
    have : MAX_CHUNK_SIZE = 8388608 := rfl
    omega
  simp only [read_header, HEADER_LEN, List.cons_append, List.length_cons,
    List.length_append, hb, List.take_succ_cons, List.take_zero,
    List.drop_succ_cons, List.drop_zero, MAGIC, VERSION]
  rw [if_neg (by omega), if_neg (by simp), if_neg (by simp)]
  have hdec : le32decode [cs % 256, cs / 256 % 256, cs / 65536 % 256,
      cs / 16777216 % 256] = cs := by
    have := le32decode_le32 cs hcs32
    simpa [le32] using this
  have htk : List.take 4 ((cs % 256) :: (cs / 256 % 256) :: (cs / 65536 % 256) ::
      (cs / 16777216 % 256) :: (base ++ payload)) =
      [cs % 256, cs / 256 % 256, cs / 65536 % 256, cs / 16777216 % 256] := rfl
  simp only [htk, hdec]
  rw [if_neg (by omega)]
  simp [List.take_left' hb, List.drop_left' hb]

theorem encryptChunks_snd (aeadSeal : List Nat → List Nat → List Nat)
    (base : List Nat) (cs : Nat) (hcs : 0 < cs) :
    ∀ fuel counter b, b.length ≤ fuel →
      (encryptChunks aeadSeal base cs fuel counter b).2 = b := by
  intro fuel
  induction fuel with
  | zero =>
    intro counter b hb
    have : b = [] := List.length_eq_zero.mp (Nat.le_zero.mp hb)
    subst this
    rfl
  | succ fuel ih =>
    intro counter b hb
    match b with
    | [] => rfl
    | x :: xs =>
      show (x :: xs).take cs ++
        (encryptChunks aeadSeal base cs fuel (counter + 1) ((x :: xs).drop cs)).2 = x :: xs
      rw [ih (counter + 1) ((x :: xs).drop cs)
        (by
          have := List.length_drop cs (x :: xs)
          have := List.length_cons x xs
          omega)]
      exact List.take_append_drop cs (x :: xs)

theorem encryptChunks_fst_length (aeadSeal : List Nat → List Nat → List Nat)
    (base : List Nat) (cs : Nat)
    (hlen : ∀ n pt, (aeadSeal n pt).length = pt.length + TAG_LEN)
    (hcs : 0 < cs) :
    ∀ fuel counter b, b.length ≤ fuel →
      ∃ k, (encryptChunks aeadSeal base cs fuel counter b).1.length
            = b.length + TAG_LEN * k ∧
        ((b = [] ∧ k = 0) ∨ (1 ≤ k ∧ (k - 1) * cs < b.length ∧ b.length ≤ k * cs)) := by
  intro fuel
  induction fuel with
  | zero =>
    intro counter b hb
    have : b = [] := List.length_eq_zero.mp (Nat.le_zero.mp hb)
    subst this
    exact ⟨0, by simp [encryptChunks], Or.inl ⟨rfl, rfl⟩⟩
  | succ fuel ih =>
    intro counter b hb
    match b with
    | [] => exact ⟨0, by simp [encryptChunks], Or.inl ⟨rfl, rfl⟩⟩
    | x :: xs =>
      have hblen : (x :: xs).length = xs.length + 1 := List.length_cons x xs
      have hdl : ((x :: xs).drop cs).length = (x :: xs).length - cs :=
        List.length_drop cs (x :: xs)
      obtain ⟨k, hk, hkb⟩ := ih (counter + 1) ((x :: xs).drop cs) (by omega)
      have hfst : (encryptChunks aeadSeal base cs (fuel + 1) counter (x :: xs)).1.length
          = ((x :: xs).take cs).length + TAG_LEN +
            (encryptChunks aeadSeal base cs fuel (counter + 1) ((x :: xs).drop cs)).1.length := by
        show (aeadSeal _ _ ++ _).length = _
        rw [List.length_append, hlen]
      have htl : ((x :: xs).take cs).length = min cs (x :: xs).length :=
        List.length_take cs _
      have htag : TAG_LEN = 16 := rfl
      rcases hkb with ⟨hnil, hk0⟩ | ⟨hk1, hlt, hle⟩
      · have h0 : (x :: xs).length - cs = 0 := by rw [← hdl, hnil]; rfl
        refine ⟨1, ?_, Or.inr ⟨le_refl 1, by omega, by omega⟩⟩
        rw [hfst, hk, hnil]
        simp only [List.length_nil, hk0, htag, htl]
        omega
      · have hmul1 : k * cs = (k - 1) * cs + cs := by
          cases k with
          | zero => omega
          | succ m => simp [Nat.succ_mul]
        have hmul2 : (k + 1) * cs = k * cs + cs := by rw [Nat.succ_mul]
        have hmul0 : (k + 1 - 1) * cs = k * cs := by simp
        refine ⟨k + 1, ?_, Or.inr ⟨by omega, by omega, by omega⟩⟩
        rw [hfst, hk]
        simp only [htag, htl, hdl]
        have hmul3 : 16 * (k + 1) = 16 * k + 16 := by rw [Nat.mul_succ]
        omega

theorem decryptChunks_nil (aeadOpen : List Nat → List Nat → Option (List Nat))
    (base : List Nat) (cs dfuel counter : Nat) :
    decryptChunks aeadOpen base cs dfuel counter [] = some [] := by
  cases dfuel <;> rfl

theorem decryptChunks_step (aeadOpen : List Nat → List Nat → Option (List Nat))
    (base : List Nat) (cs d counter : Nat) (p pt : List Nat) (hp : p ≠ [])
    (hopen_eq : aeadOpen (nonce_for_chunk base counter) (p.take (cs + TAG_LEN)) = some pt) :
    decryptChunks aeadOpen base cs (d + 1) counter p =
      if p.length < cs + TAG_LEN then some pt
      else
        match decryptChunks aeadOpen base cs d (counter + 1) (p.drop (cs + TAG_LEN)) with
        | none => none
        | some rest => some (pt ++ rest) := by
  cases p with
  | nil => exact absurd rfl hp
  | cons x xs => simp only [decryptChunks, hopen_eq]

theorem decryptChunks_encryptChunks
    (aeadSeal : List Nat → List Nat → List Nat)
    (aeadOpen : List Nat → List Nat → Option (List Nat))
    (base : List Nat) (cs : Nat)
    (hopen : ∀ n pt, aeadOpen n (aeadSeal n pt) = some pt)
    (hlen : ∀ n pt, (aeadSeal n pt).length = pt.length + TAG_LEN)
    (hcs : 0 < cs) :
    ∀ fuel counter b dfuel, b.length ≤ fuel →
      (encryptChunks aeadSeal base cs fuel counter b).1.length ≤ dfuel →
      decryptChunks aeadOpen base cs dfuel counter
        (encryptChunks aeadSeal base cs fuel counter b).1 = some b := by
  intro fuel
  induction fuel with
  | zero =>
    intro counter b dfuel hb _
    have hbnil : b = [] := List.length_eq_zero.mp (Nat.le_zero.mp hb)
    subst hbnil
    exact decryptChunks_nil aeadOpen base cs dfuel counter
  | succ fuel ih =>
    intro counter b dfuel hb hd
    match b with
    | [] => exact decryptChunks_nil aeadOpen base cs dfuel counter
    | x :: xs =>
      have htag : TAG_LEN = 16 := rfl
      have hE1 : (encryptChunks aeadSeal base cs (fuel + 1) counter (x :: xs)).1
          = aeadSeal (nonce_for_chunk base counter) ((x :: xs).take cs)
            ++ (encryptChunks aeadSeal base cs fuel (counter + 1) ((x :: xs).drop cs)).1 := rfl
      have hblen : (x :: xs).length = xs.length + 1 := List.length_cons x xs
      have hTK : ((x :: xs).take cs).length = min cs (xs.length + 1) := by
        rw [List.length_take, hblen]
      have hDR : ((x :: xs).drop cs).length = xs.length + 1 - cs := by
        rw [List.length_drop, hblen]
      have hClen : (aeadSeal (nonce_for_chunk base counter) ((x :: xs).take cs)).length
          = ((x :: xs).take cs).length + TAG_LEN := hlen _ _
      rw [hE1] at hd ⊢
      have hdlen : (aeadSeal (nonce_for_chunk base counter) ((x :: xs).take cs)).length
          + (encryptChunks aeadSeal base cs fuel (counter + 1) ((x :: xs).drop cs)).1.length
          ≤ dfuel := by rw [← List.length_append]; exact hd
      obtain ⟨d, rfl⟩ : ∃ d, dfuel = d + 1 := ⟨dfuel - 1, by omega⟩
      rcases Nat.lt_or_ge (xs.length + 1) cs with hsmall | hbig
      · -- the whole plaintext fits in one short chunk
        have htk_all : (x :: xs).take cs = x :: xs :=
          List.take_of_length_le (by omega)
        have hdr_nil : (x :: xs).drop cs = [] :=
          List.drop_eq_nil_of_le (by omega)
        have hR_nil : (encryptChunks aeadSeal base cs fuel (counter + 1)
            ((x :: xs).drop cs)).1 = [] := by
          rw [hdr_nil]; cases fuel <;> rfl
        rw [hR_nil, List.append_nil]
        have hCne : aeadSeal (nonce_for_chunk base counter) ((x :: xs).take cs) ≠ [] := by
          intro hx
          have := congrArg List.length hx
          rw [hClen] at this
          simp [TAG_LEN] at this
        have hopen_eq : aeadOpen (nonce_for_chunk base counter)
            ((aeadSeal (nonce_for_chunk base counter) ((x :: xs).take cs)).take
              (cs + TAG_LEN)) = some (x :: xs) := by
          rw [List.take_of_length_le (by rw [hClen, hTK]; omega), htk_all, hopen]
        rw [decryptChunks_step aeadOpen base cs d counter _ _ hCne hopen_eq,
          if_pos (by rw [hClen, hTK]; omega)]
      · -- a full first chunk
        have hTKlen : ((x :: xs).take cs).length = cs := by rw [hTK]; omega
        have hClen2 : (aeadSeal (nonce_for_chunk base counter) ((x :: xs).take cs)).length
            = cs + TAG_LEN := by rw [hClen, hTKlen]
        rcases Nat.eq_or_lt_of_le hbig with heq | hlt
        · -- the plaintext is exactly one chunk
          have hdr_nil : (x :: xs).drop cs = [] :=
            List.drop_eq_nil_of_le (by omega)
          have hR_nil : (encryptChunks aeadSeal base cs fuel (counter + 1)
              ((x :: xs).drop cs)).1 = [] := by
            rw [hdr_nil]; cases fuel <;> rfl
          rw [hR_nil, List.append_nil]
          have hCne : aeadSeal (nonce_for_chunk base counter) ((x :: xs).take cs) ≠ [] := by
            intro hx
            have := congrArg List.length hx
            rw [hClen2] at this
            simp [TAG_LEN] at this
          have htk_all : (x :: xs).take cs = x :: xs :=
            List.take_of_length_le (by omega)
          have hopen_eq : aeadOpen (nonce_for_chunk base counter)
              ((aeadSeal (nonce_for_chunk base counter) ((x :: xs).take cs)).take
                (cs + TAG_LEN)) = some (x :: xs) := by
            rw [List.take_of_length_le (by rw [hClen2]), htk_all, hopen]
          rw [decryptChunks_step aeadOpen base cs d counter _ _ hCne hopen_eq,
            if_neg (by rw [hClen2]; omega),
            List.drop_eq_nil_of_le (by rw [hClen2]),
            decryptChunks_nil]
          simp
        · -- the plaintext continues past this chunk
          have hDRne : (x :: xs).drop cs ≠ [] := by
            intro hx
            have := congrArg List.length hx
            rw [hDR] at this
            simp at this
            omega
          obtain ⟨k, hkl, hkb⟩ := encryptChunks_fst_length aeadSeal base cs hlen hcs
            fuel (counter + 1) ((x :: xs).drop cs) (by rw [hDR]; omega)
          have hk1 : 1 ≤ k := by
            rcases hkb with ⟨hnil, _⟩ | ⟨h1, _, _⟩
            · exact absurd hnil hDRne
            · exact h1
          have hRpos : 1 ≤ (encryptChunks aeadSeal base cs fuel (counter + 1)
              ((x :: xs).drop cs)).1.length := by
            rw [hkl, htag]; omega
          have hpne : aeadSeal (nonce_for_chunk base counter) ((x :: xs).take cs)
              ++ (encryptChunks aeadSeal base cs fuel (counter + 1)
                ((x :: xs).drop cs)).1 ≠ [] := by
            intro hx
            have := congrArg List.length hx
            rw [List.length_append, hClen2] at this
            simp [TAG_LEN] at this
          have hopen_eq : aeadOpen (nonce_for_chunk base counter)
              ((aeadSeal (nonce_for_chunk base counter) ((x :: xs).take cs)
                ++ (encryptChunks aeadSeal base cs fuel (counter + 1)
                  ((x :: xs).drop cs)).1).take (cs + TAG_LEN)) = some ((x :: xs).take cs) := by
            rw [List.take_left' hClen2, hopen]
          rw [decryptChunks_step aeadOpen base cs d counter _ _ hpne hopen_eq,
            if_neg (by rw [List.length_append, hClen2]; omega),
            List.drop_left' hClen2,
            ih (counter + 1) ((x :: xs).drop cs) d (by rw [hDR]; omega)
              (by rw [hClen2] at hdlen; omega)]
          simp only [List.take_append_drop]

/-- The generic encrypt/decrypt round trip at any valid chunk size: the
container built by `encrypt_stream_internal` parses and serially decrypts
back to the exact plaintext, and the hasher was fed exactly the
plaintext. -/
theorem encrypt_stream_internal_roundtrip
    (aeadSeal : List Nat → List Nat → List Nat)
    (aeadOpen : List Nat → List Nat → Option (List Nat))
    (base b : List Nat) (cs : Nat)
    (hopen : ∀ n pt, aeadOpen n (aeadSeal n pt) = some pt)
    (hlen : ∀ n pt, (aeadSeal n pt).length = pt.length + TAG_LEN)
    (hbase : base.length = 12) (hcs : 0 < cs) (hmax : cs ≤ MAX_CHUNK_SIZE) :
    encrypt_stream_internal aeadSeal base cs b =
      some (write_header base cs ++ (encryptChunks aeadSeal base cs b.length 0 b).1,
        b, b.length) ∧
    decrypt_stream aeadOpen
      (write_header base cs ++ (encryptChunks aeadSeal base cs b.length 0 b).1) =
      some (b, b.length) := by
  constructor
  · rw [encrypt_stream_internal, if_neg (by omega)]
    show some (write_header base cs ++ (encryptChunks aeadSeal base cs b.length 0 b).1,
      (encryptChunks aeadSeal base cs b.length 0 b).2, b.length) = _
    rw [encryptChunks_snd aeadSeal base cs hcs b.length 0 b (le_refl _)]
  · rw [decrypt_stream, read_header_write_header base _ cs hbase hcs hmax]
    show (match decryptChunks aeadOpen base cs
        (encryptChunks aeadSeal base cs b.length 0 b).1.length 0
        (encryptChunks aeadSeal base cs b.length 0 b).1 with
      | none => none
      | some pt => some (pt, pt.length)) = some (b, b.length)
    rw [decryptChunks_encryptChunks aeadSeal aeadOpen base cs hopen hlen hcs
      b.length 0 b _ (le_refl _) (le_refl _)]

theorem mockSeal_length (n pt : List Nat) :
    (mockSeal n pt).length = pt.length + TAG_LEN := by
  simp [mockSeal]

theorem mockOpen_mockSeal (n pt : List Nat) :
    mockOpen n (mockSeal n pt) = some pt := by
  simp [mockSeal, mockOpen]

/-- C1: for every byte sequence `b` and every key (any AEAD cipher pair
satisfying AES-GCM's inversion and tag-length laws), serially decrypting
the stream-encrypted container yields exactly `b`, and the hash returned
by `encrypt_stream_with_hash` is the digest of exactly the plaintext
bytes `b`. -/
theorem c1_crypto_roundtrip
    (aeadSeal : List Nat → List Nat → List Nat)
    (aeadOpen : List Nat → List Nat → Option (List Nat))
    (hexSha256 : List Nat → String)
    (hopen : ∀ n pt, aeadOpen n (aeadSeal n pt) = some pt)
    (hlen : ∀ n pt, (aeadSeal n pt).length = pt.length + TAG_LEN)
    (base b : List Nat) (hbase : base.length = 12) :
    (∃ file, encrypt_stream aeadSeal base b = some (file, b.length) ∧
      decrypt_stream aeadOpen file = some (b, b.length)) ∧
    encrypt_stream_with_hash aeadSeal hexSha256 base b
      = some (hexSha256 b, b.length) := by
  have hcs : 0 < DEFAULT_CHUNK_SIZE := by decide
  have hmax : DEFAULT_CHUNK_SIZE ≤ MAX_CHUNK_SIZE := by decide
  have h := encrypt_stream_internal_roundtrip aeadSeal aeadOpen base b
    DEFAULT_CHUNK_SIZE hopen hlen hbase hcs hmax
  constructor
  · exact ⟨_, by rw [encrypt_stream, h.1], h.2⟩
  · rw [encrypt_stream_with_hash, h.1]

theorem c1_crypto_roundtrip_witness :
    (∃ file, encrypt_stream mockSeal (List.replicate 12 0) [1, 2, 3]
        = some (file, 3) ∧
      decrypt_stream mockOpen file = some ([1, 2, 3], 3)) ∧
    encrypt_stream_with_hash mockSeal (fun l => toString l)
      (List.replicate 12 0) [1, 2, 3]
      = some (toString ([1, 2, 3] : List Nat), 3) :=
  c1_crypto_roundtrip mockSeal mockOpen (fun l => toString l)
    mockOpen_mockSeal mockSeal_length (List.replicate 12 0) [1, 2, 3] (by decide)

/-! ## Container length accounting (C2) -/

/-- The positive half of the length accounting: for a container of a
non-empty plaintext, `encrypted_plaintext_len` recovers exactly the
plaintext length. -/
theorem encrypted_plaintext_len_of_encrypt
    (aeadSeal : List Nat → List Nat → List Nat)
    (base b : List Nat) (cs : Nat)
    (hlen : ∀ n pt, (aeadSeal n pt).length = pt.length + TAG_LEN)
    (hbase : base.length = 12) (hcs : 0 < cs) (hmax : cs ≤ MAX_CHUNK_SIZE)
    (hb : b ≠ []) :
    encrypted_plaintext_len
      (write_header base cs ++ (encryptChunks aeadSeal base cs b.length 0 b).1)
      = some b.length := by
  obtain ⟨k, hkl, hkb⟩ := encryptChunks_fst_length aeadSeal base cs hlen hcs
    b.length 0 b (le_refl _)
  rcases hkb with ⟨hnil, _⟩ | ⟨hk1, hklt, hkle⟩
  · exact absurd hnil hb
  have htag : TAG_LEN = 16 := rfl
  have hbpos : 1 ≤ b.length := List.length_pos.mpr hb
  have hwlen : (write_header base cs).length = 21 := by
    simp [write_header, MAGIC, le32, hbase]
  have hflen : (write_header base cs ++
      (encryptChunks aeadSeal base cs b.length 0 b).1).length
      = 21 + (b.length + TAG_LEN * k) := by
    rw [List.length_append, hwlen, hkl]
  rw [encrypted_plaintext_len,
    if_neg (by rw [hflen]; simp [HEADER_LEN, TAG_LEN]; omega),
    read_header_write_header base _ cs hbase hcs hmax]
  show (if (encryptChunks aeadSeal base cs b.length 0 b).1.length = 0 then some 0
    else
      if 0 < (encryptChunks aeadSeal base cs b.length 0 b).1.length % (cs + TAG_LEN) ∧
          (encryptChunks aeadSeal base cs b.length 0 b).1.length % (cs + TAG_LEN) < TAG_LEN
      then none
      else some ((encryptChunks aeadSeal base cs b.length 0 b).1.length / (cs + TAG_LEN) * cs +
        if (encryptChunks aeadSeal base cs b.length 0 b).1.length % (cs + TAG_LEN) = 0 then 0
        else (encryptChunks aeadSeal base cs b.length 0 b).1.length % (cs + TAG_LEN) - TAG_LEN))
      = some b.length
  rw [if_neg (by rw [hkl]; omega)]
  have hmulk : k * cs = (k - 1) * cs + cs := by
    cases k with
    | zero => omega
    | succ m => simp [Nat.succ_mul]
  -- the last-chunk plaintext length
  rcases Nat.eq_or_lt_of_le hkle with hfull | hpart
  · -- the plaintext is an exact multiple of the chunk size
    have hPlen : (encryptChunks aeadSeal base cs b.length 0 b).1.length
        = k * (cs + TAG_LEN) := by
      rw [hkl, htag]
      have h1 : k * (cs + 16) = k * cs + k * 16 := Nat.mul_add k cs 16
      have h2 : k * 16 = 16 * k := Nat.mul_comm k 16
      omega
    have hmod : k * (cs + TAG_LEN) % (cs + TAG_LEN) = 0 := Nat.mul_mod_left k _
    have hdiv : k * (cs + TAG_LEN) / (cs + TAG_LEN) = k :=
      Nat.mul_div_cancel k (by omega)
    rw [hPlen, hmod, hdiv, if_neg (by omega), if_pos rfl, ← hfull]
    simp
  · -- the last chunk is partial, of length r with 0 < r < cs
    have hr1 : 1 ≤ b.length - (k - 1) * cs := by omega
    have hPsplit : (encryptChunks aeadSeal base cs b.length 0 b).1.length
        = (b.length - (k - 1) * cs + 16) + (k - 1) * (cs + 16) := by
      rw [hkl, htag]
      have h1 : (k - 1) * (cs + 16) = (k - 1) * cs + (k - 1) * 16 :=
        Nat.mul_add (k - 1) cs 16
      have h2 : 16 * k = 16 * (k - 1) + 16 := by
        cases k with
        | zero => omega
        | succ m => simp [Nat.mul_succ]
      have h3 : (k - 1) * 16 = 16 * (k - 1) := Nat.mul_comm _ _
      omega
    have hrlt : b.length - (k - 1) * cs + 16 < cs + 16 := by omega
    have hmod : ((b.length - (k - 1) * cs + 16) + (k - 1) * (cs + 16)) % (cs + 16)
        = b.length - (k - 1) * cs + 16 := by
      rw [Nat.add_mul_mod_self_right]
      exact Nat.mod_eq_of_lt hrlt
    have hdiv : ((b.length - (k - 1) * cs + 16) + (k - 1) * (cs + 16)) / (cs + 16)
        = k - 1 := by
      rw [Nat.add_mul_div_right _ _ (by omega : 0 < cs + 16),
        Nat.div_eq_of_lt hrlt]
      omega
    rw [hPsplit, htag, hmod, hdiv,
      if_neg (by omega), if_neg (by omega)]
    have : (k - 1) * cs + (b.length - (k - 1) * cs + 16 - 16) = b.length := by omega
    rw [this]

/-- C2: the accounting claim fails at the container of the empty
plaintext.  Stream-encrypting the empty byte sequence produces the bare
21-byte header, which `decrypt_stream` decrypts back to the empty
sequence — yet `encrypted_plaintext_len` rejects it with the
`encrypted file too small` error (its size check requires at least
`HEADER_LEN + TAG_LEN` bytes, contradicting its own unreachable
`payload_len == 0 → Ok(0)` branch). -/
theorem c2_plaintext_len_empty_plaintext :
    encrypt_stream mockSeal (List.replicate 12 0) []
      = some (write_header (List.replicate 12 0) DEFAULT_CHUNK_SIZE, 0) ∧
    decrypt_stream mockOpen (write_header (List.replicate 12 0) DEFAULT_CHUNK_SIZE)
      = some ([], 0) ∧
    encrypted_plaintext_len (write_header (List.replicate 12 0) DEFAULT_CHUNK_SIZE)
      = none := by
  refine ⟨?_, ?_, ?_⟩ <;> decide

/-! ## Parallel decryption (C3) -/

theorem encryptChunks_fuel_irrel (aeadSeal : List Nat → List Nat → List Nat)
    (base : List Nat) (cs : Nat) (hcs : 0 < cs) :
    ∀ fuel counter b, b.length ≤ fuel →
      encryptChunks aeadSeal base cs fuel counter b
        = encryptChunks aeadSeal base cs b.length counter b := by
  intro fuel
  induction fuel using Nat.strong_induction_on with
  | _ fuel ih =>
    intro counter b hb
    match fuel, b with
    | 0, b =>
      have : b = [] := List.length_eq_zero.mp (Nat.le_zero.mp hb)
      subst this
      rfl
    | fuel + 1, [] => rfl
    | fuel + 1, x :: xs =>
      have hlen : (x :: xs).length = xs.length + 1 := List.length_cons x xs
      have hdl : ((x :: xs).drop cs).length = xs.length + 1 - cs := by
        rw [List.length_drop, hlen]
      show (let chunk := (x :: xs).take cs
            let rest := encryptChunks aeadSeal base cs fuel (counter + 1) ((x :: xs).drop cs)
            (aeadSeal (nonce_for_chunk base counter) chunk ++ rest.1, chunk ++ rest.2))
        = encryptChunks aeadSeal base cs (x :: xs).length counter (x :: xs)
      have h1 : encryptChunks aeadSeal base cs fuel (counter + 1) ((x :: xs).drop cs)
          = encryptChunks aeadSeal base cs ((x :: xs).drop cs).length (counter + 1)
            ((x :: xs).drop cs) :=
        ih fuel (by omega) (counter + 1) _ (by omega)
      have h2 : encryptChunks aeadSeal base cs xs.length (counter + 1) ((x :: xs).drop cs)
          = encryptChunks aeadSeal base cs ((x :: xs).drop cs).length (counter + 1)
            ((x :: xs).drop cs) :=
        ih xs.length (by omega) (counter + 1) _ (by omega)
      show (aeadSeal (nonce_for_chunk base counter) ((x :: xs).take cs) ++
          (encryptChunks aeadSeal base cs fuel (counter + 1) ((x :: xs).drop cs)).1,
          (x :: xs).take cs ++
          (encryptChunks aeadSeal base cs fuel (counter + 1) ((x :: xs).drop cs)).2)
        = encryptChunks aeadSeal base cs (x :: xs).length counter (x :: xs)
      rw [h1]
      have hR : encryptChunks aeadSeal base cs (x :: xs).length counter (x :: xs)
          = (aeadSeal (nonce_for_chunk base counter) ((x :: xs).take cs) ++
              (encryptChunks aeadSeal base cs xs.length (counter + 1) ((x :: xs).drop cs)).1,
            (x :: xs).take cs ++
              (encryptChunks aeadSeal base cs xs.length (counter + 1) ((x :: xs).drop cs)).2) := by
        rw [hlen]
        rfl
      rw [hR, h2]

theorem encryptChunks_drop_slice (aeadSeal : List Nat → List Nat → List Nat)
    (base : List Nat) (cs : Nat)
    (hlen : ∀ n pt, (aeadSeal n pt).length = pt.length + TAG_LEN)
    (hcs : 0 < cs) :
    ∀ j counter b, j * cs < b.length →
      (encryptChunks aeadSeal base cs b.length counter b).1.drop (j * (cs + TAG_LEN))
        = (encryptChunks aeadSeal base cs (b.drop (j * cs)).length (counter + j)
            (b.drop (j * cs))).1 := by
  intro j
  induction j with
  | zero =>
    intro counter b _
    simp
  | succ j ih =>
    intro counter b hj
    have hmul1 : (j + 1) * cs = j * cs + cs := Nat.succ_mul j cs
    have hcs_lt : cs < b.length := by omega
    match b with
    | x :: xs =>
      have hblen : (x :: xs).length = xs.length + 1 := List.length_cons x xs
      have hE : (encryptChunks aeadSeal base cs (x :: xs).length counter (x :: xs)).1
          = aeadSeal (nonce_for_chunk base counter) ((x :: xs).take cs) ++
            (encryptChunks aeadSeal base cs ((x :: xs).drop cs).length (counter + 1)
              ((x :: xs).drop cs)).1 := by
        rw [hblen]
        show (aeadSeal (nonce_for_chunk base counter) ((x :: xs).take cs) ++
          (encryptChunks aeadSeal base cs xs.length (counter + 1) ((x :: xs).drop cs)).1,
          (x :: xs).take cs ++
          (encryptChunks aeadSeal base cs xs.length (counter + 1) ((x :: xs).drop cs)).2).1
          = _
        rw [encryptChunks_fuel_irrel aeadSeal base cs hcs xs.length (counter + 1)
          ((x :: xs).drop cs) (by rw [List.length_drop, hblen]; omega)]
      have hCl : (aeadSeal (nonce_for_chunk base counter) ((x :: xs).take cs)).length
          = cs + TAG_LEN := by
        rw [hlen, List.length_take]
        have : min cs (x :: xs).length = cs := by rw [hblen]; omega
        rw [this]
      have hsplit : (j + 1) * (cs + TAG_LEN)
          = (cs + TAG_LEN) + j * (cs + TAG_LEN) := by
        rw [Nat.succ_mul]
        omega
      have hdlen : ((x :: xs).drop cs).length = (x :: xs).length - cs :=
        List.length_drop cs (x :: xs)
      have hjd : j * cs < ((x :: xs).drop cs).length := by
        rw [hdlen]; omega
      have hidx : cs + TAG_LEN + j * (cs + TAG_LEN)
          - (aeadSeal (nonce_for_chunk base counter) ((x :: xs).take cs)).length
          = j * (cs + TAG_LEN) := by rw [hCl]; omega
      rw [hE, hsplit, List.drop_append_eq_append_drop,
        List.drop_eq_nil_of_le (by rw [hCl]; omega), List.nil_append, hidx,
        ih (counter + 1) ((x :: xs).drop cs) hjd, List.drop_drop]
      have harith : cs + j * cs = (j + 1) * cs := by rw [Nat.succ_mul]; omega
      have hctr : counter + 1 + j = counter + (j + 1) := by omega
      rw [harith, hctr]

theorem encryptChunks_cons_fst (aeadSeal : List Nat → List Nat → List Nat)
    (base : List Nat) (cs : Nat) (hcs : 0 < cs)
    (counter : Nat) (t : List Nat) (ht : t ≠ []) :
    (encryptChunks aeadSeal base cs t.length counter t).1
      = aeadSeal (nonce_for_chunk base counter) (t.take cs) ++
        (encryptChunks aeadSeal base cs (t.drop cs).length (counter + 1) (t.drop cs)).1 := by
  match t with
  | [] => exact absurd rfl ht
  | x :: xs =>
    have hblen : (x :: xs).length = xs.length + 1 := List.length_cons x xs
    rw [hblen]
    show (aeadSeal (nonce_for_chunk base counter) ((x :: xs).take cs) ++
      (encryptChunks aeadSeal base cs xs.length (counter + 1) ((x :: xs).drop cs)).1,
      (x :: xs).take cs ++
      (encryptChunks aeadSeal base cs xs.length (counter + 1) ((x :: xs).drop cs)).2).1
      = _
    rw [encryptChunks_fuel_irrel aeadSeal base cs hcs xs.length (counter + 1)
      ((x :: xs).drop cs) (by rw [List.length_drop, hblen]; omega)]

theorem writeBytes_chunk (b : List Nat) (n m : Nat) (hn : n ≤ b.length) :
    writeBytes (b.take n ++ List.replicate (b.length - n) 0) n ((b.drop n).take m)
      = b.take (n + m) ++ List.replicate (b.length - (n + m)) 0 := by
  have htb : (b.take n).length = n := by rw [List.length_take]; omega
  have hpt : ((b.drop n).take m).length = min m (b.length - n) := by
    rw [List.length_take, List.length_drop]
  have hdrop0 : (b.take n).drop (n + ((b.drop n).take m).length) = [] :=
    List.drop_eq_nil_of_le (by rw [htb]; omega)
  simp only [writeBytes]
  rw [List.take_left' htb, List.drop_append_eq_append_drop, hdrop0,
    List.nil_append, List.drop_replicate]
  have hcnt : b.length - n - (n + ((b.drop n).take m).length - (b.take n).length)
      = b.length - (n + m) := by rw [htb, hpt]; omega
  rw [hcnt, List.take_add, List.append_assoc]

theorem parallelChunks_invariant
    (aeadSeal : List Nat → List Nat → List Nat)
    (aeadOpen : List Nat → List Nat → Option (List Nat))
    (base : List Nat) (cs : Nat)
    (hopen : ∀ n pt, aeadOpen n (aeadSeal n pt) = some pt)
    (hlen : ∀ n pt, (aeadSeal n pt).length = pt.length + TAG_LEN)
    (hbase : base.length = 12) (hcs : 0 < cs)
    (b : List Nat) (hb : b ≠ []) :
    ∀ k, 1 ≤ k → (k - 1) * cs < b.length → b.length ≤ k * cs →
      (encryptChunks aeadSeal base cs b.length 0 b).1.length
        = b.length + TAG_LEN * k →
    ∀ rem idx, idx + rem = k →
      parallelChunks aeadOpen
        (write_header base cs ++ (encryptChunks aeadSeal base cs b.length 0 b).1)
        base cs k b.length rem idx
        (b.take (idx * cs) ++ List.replicate (b.length - idx * cs) 0)
      = some b := by
  intro k hk1 hklt hkle hkl rem
  have htag : TAG_LEN = 16 := rfl
  have hwlen : (write_header base cs).length = 21 := by
    simp [write_header, MAGIC, le32, hbase]
  have hmulk : k * cs = (k - 1) * cs + cs := by
    cases k with
    | zero => omega
    | succ m => simp [Nat.succ_mul]
  induction rem with
  | zero =>
    intro idx hidx
    have hidxk : idx = k := by omega
    subst hidxk
    show some (b.take (idx * cs) ++ List.replicate (b.length - idx * cs) 0) = some b
    have h0 : b.length - idx * cs = 0 := by omega
    rw [List.take_of_length_le hkle, h0, List.replicate_zero, List.append_nil]
  | succ rem ih =>
    intro idx hidx
    have hidx_le : idx ≤ k - 1 := by omega
    have hidxcs_le : idx * cs ≤ (k - 1) * cs := Nat.mul_le_mul_right cs hidx_le
    have hidxcs_lt : idx * cs < b.length := by omega
    have htail_len : (b.drop (idx * cs)).length = b.length - idx * cs :=
      List.length_drop _ b
    have htail_ne : b.drop (idx * cs) ≠ [] := by
      intro hx
      have := congrArg List.length hx
      rw [htail_len] at this
      simp at this
      omega
    -- the payload suffix at this chunk index
    have hpayload : (write_header base cs ++
        (encryptChunks aeadSeal base cs b.length 0 b).1).drop
          (HEADER_LEN + idx * (cs + TAG_LEN))
        = (encryptChunks aeadSeal base cs (b.drop (idx * cs)).length idx
            (b.drop (idx * cs))).1 := by
      rw [List.drop_append_eq_append_drop,
        List.drop_eq_nil_of_le (by rw [hwlen]; simp [HEADER_LEN]),
        List.nil_append]
      have hz : HEADER_LEN + idx * (cs + TAG_LEN) - (write_header base cs).length
          = idx * (cs + TAG_LEN) := by rw [hwlen]; simp [HEADER_LEN]
      rw [hz, encryptChunks_drop_slice aeadSeal base cs hlen hcs idx 0 b hidxcs_lt,
        Nat.zero_add]
    -- unfold the sealed chunk at this index
    have hEB : (encryptChunks aeadSeal base cs (b.drop (idx * cs)).length idx
          (b.drop (idx * cs))).1
        = aeadSeal (nonce_for_chunk base idx) ((b.drop (idx * cs)).take cs) ++
          (encryptChunks aeadSeal base cs ((b.drop (idx * cs)).drop cs).length (idx + 1)
            ((b.drop (idx * cs)).drop cs)).1 :=
      encryptChunks_cons_fst aeadSeal base cs hcs idx _ htail_ne
    have hCl : (aeadSeal (nonce_for_chunk base idx) ((b.drop (idx * cs)).take cs)).length
        = ((b.drop (idx * cs)).take cs).length + TAG_LEN := hlen _ _
    have hptlen : ((b.drop (idx * cs)).take cs).length
        = min cs (b.length - idx * cs) := by
      rw [List.length_take, htail_len]
    -- bridges for the index arithmetic
    have hmul_i : idx * (cs + TAG_LEN) = idx * cs + idx * TAG_LEN :=
      Nat.mul_add idx cs TAG_LEN
    have hmul_i16 : idx * TAG_LEN ≤ (k - 1) * TAG_LEN :=
      Nat.mul_le_mul_right TAG_LEN hidx_le
    have hmul_k16 : k * TAG_LEN = (k - 1) * TAG_LEN + TAG_LEN := by
      cases k with
      | zero => omega
      | succ m => simp [Nat.succ_mul]
    have hmul_16k : TAG_LEN * k = k * TAG_LEN := Nat.mul_comm _ _
    have hmul_s : (idx + 1) * cs = idx * cs + cs := Nat.succ_mul idx cs
    have hmul_s_le : (idx + 1) * cs ≤ k * cs :=
      Nat.mul_le_mul_right cs (by omega)
    -- the total file length
    have hflen : (write_header base cs ++
        (encryptChunks aeadSeal base cs b.length 0 b).1).length
        = 21 + (b.length + TAG_LEN * k) := by
      rw [List.length_append, hwlen, hkl]
    -- the buffer after this chunk is written
    have hwb : writeBytes (b.take (idx * cs) ++ List.replicate (b.length - idx * cs) 0)
        (idx * cs) ((b.drop (idx * cs)).take cs)
        = b.take ((idx + 1) * cs) ++ List.replicate (b.length - (idx + 1) * cs) 0 := by
      rw [writeBytes_chunk b (idx * cs) cs (le_of_lt hidxcs_lt), ← hmul_s]
    rcases Nat.eq_or_lt_of_le hidx_le with hlast | hmid
    · -- idx = k - 1: the final, possibly partial chunk
      have hidx_eq : idx * cs = (k - 1) * cs := by rw [hlast]
      have hidx_eq16 : idx * TAG_LEN = (k - 1) * TAG_LEN := by rw [hlast]
      have hr_le : b.length - idx * cs ≤ cs := by omega
      have htake_all : (b.drop (idx * cs)).take cs = b.drop (idx * cs) :=
        List.take_of_length_le (by omega)
      have hdrop2 : (b.drop (idx * cs)).drop cs = [] :=
        List.drop_eq_nil_of_le (by omega)
      have hrest_nil : (encryptChunks aeadSeal base cs
          ((b.drop (idx * cs)).drop cs).length (idx + 1)
          ((b.drop (idx * cs)).drop cs)).1 = [] := by
        rw [hdrop2]; rfl
      have hplain : (if idx = k - 1 then b.length - idx * cs else cs)
          = b.length - idx * cs := if_pos hlast
      have hslice : ((write_header base cs ++
          (encryptChunks aeadSeal base cs b.length 0 b).1).drop
            (HEADER_LEN + idx * (cs + TAG_LEN))).take
              ((b.length - idx * cs) + TAG_LEN)
          = aeadSeal (nonce_for_chunk base idx) ((b.drop (idx * cs)).take cs) := by
        rw [hpayload, hEB, hrest_nil, List.append_nil]
        exact List.take_of_length_le (by rw [hCl, hptlen]; omega)
      have hEOF : ¬ ((write_header base cs ++
          (encryptChunks aeadSeal base cs b.length 0 b).1).length
          < HEADER_LEN + idx * (cs + TAG_LEN) +
            ((if idx = k - 1 then b.length - idx * cs else cs) + TAG_LEN)) := by
        rw [hflen, hplain]
        simp only [HEADER_LEN]
        omega
      simp only [parallelChunks]
      rw [if_neg hEOF, hplain, hslice, hopen]
      show parallelChunks aeadOpen
          (write_header base cs ++ (encryptChunks aeadSeal base cs b.length 0 b).1)
          base cs k b.length rem (idx + 1)
          (writeBytes (b.take (idx * cs) ++ List.replicate (b.length - idx * cs) 0)
            (idx * cs) ((b.drop (idx * cs)).take cs))
        = some b
      rw [hwb]
      exact ih (idx + 1) (by omega)
    · -- idx < k - 1: a full middle chunk
      have hfull : cs < b.length - idx * cs := by
        have h1 : (idx + 1) * cs ≤ (k - 1) * cs :=
          Nat.mul_le_mul_right cs (by omega)
        omega
      have hptfull : ((b.drop (idx * cs)).take cs).length = cs := by
        rw [hptlen]; omega
      have hCl2 : (aeadSeal (nonce_for_chunk base idx)
          ((b.drop (idx * cs)).take cs)).length = cs + TAG_LEN := by
        rw [hCl, hptfull]
      have hplain : (if idx = k - 1 then b.length - idx * cs else cs) = cs :=
        if_neg (by omega)
      have hslice : ((write_header base cs ++
          (encryptChunks aeadSeal base cs b.length 0 b).1).drop
            (HEADER_LEN + idx * (cs + TAG_LEN))).take (cs + TAG_LEN)
          = aeadSeal (nonce_for_chunk base idx) ((b.drop (idx * cs)).take cs) := by
        rw [hpayload, hEB, List.take_left' hCl2]
      have hEOF : ¬ ((write_header base cs ++
          (encryptChunks aeadSeal base cs b.length 0 b).1).length
          < HEADER_LEN + idx * (cs + TAG_LEN) +
            ((if idx = k - 1 then b.length - idx * cs else cs) + TAG_LEN)) := by
        rw [hflen, hplain]
        simp only [HEADER_LEN]
        omega
      simp only [parallelChunks]
      rw [if_neg hEOF, hplain, hslice, hopen]
      show parallelChunks aeadOpen
          (write_header base cs ++ (encryptChunks aeadSeal base cs b.length 0 b).1)
          base cs k b.length rem (idx + 1)
          (writeBytes (b.take (idx * cs) ++ List.replicate (b.length - idx * cs) 0)
            (idx * cs) ((b.drop (idx * cs)).take cs))
        = some b
      rw [hwb]
      exact ih (idx + 1) (by omega)

/-- C3 (amended): for every container produced by the streaming encryptor
from a NON-EMPTY plaintext `b`, `decrypt_file_parallel` with any worker
count `w ≥ 1` succeeds and its output equals the serial `decrypt_stream`
output, namely `b` itself.  (The original universally quantified claim is
refuted by the empty-plaintext container, see the counterexample.) -/
theorem c3_parallel_matches_serial
    (aeadSeal : List Nat → List Nat → List Nat)
    (aeadOpen : List Nat → List Nat → Option (List Nat))
    (hopen : ∀ n pt, aeadOpen n (aeadSeal n pt) = some pt)
    (hlen : ∀ n pt, (aeadSeal n pt).length = pt.length + TAG_LEN)
    (base b : List Nat) (cs workers : Nat)
    (hbase : base.length = 12) (hcs : 0 < cs) (hmax : cs ≤ MAX_CHUNK_SIZE)
    (hb : b ≠ []) (hw : 1 ≤ workers) :
    decrypt_file_parallel aeadOpen
      (write_header base cs ++ (encryptChunks aeadSeal base cs b.length 0 b).1) workers
      = some (b, b.length) ∧
    decrypt_stream aeadOpen
      (write_header base cs ++ (encryptChunks aeadSeal base cs b.length 0 b).1)
      = some (b, b.length) := by
  have hround := encrypt_stream_internal_roundtrip aeadSeal aeadOpen base b cs
    hopen hlen hbase hcs hmax
  refine ⟨?_, hround.2⟩
  obtain ⟨k, hkl, hkb⟩ := encryptChunks_fst_length aeadSeal base cs hlen hcs
    b.length 0 b (le_refl _)
  rcases hkb with ⟨hnil, _⟩ | ⟨hk1, hklt, hkle⟩
  · exact absurd hnil hb
  have hbpos : 1 ≤ b.length := List.length_pos.mpr hb
  have hmulk : k * cs = (k - 1) * cs + cs := by
    cases k with
    | zero => omega
    | succ m => simp [Nat.succ_mul]
  have hmulk1 : (k + 1) * cs = k * cs + cs := Nat.succ_mul k cs
  have hdivk : (b.length + cs - 1) / cs = k :=
    Nat.div_eq_of_lt_le (by omega) (by omega)
  rw [decrypt_file_parallel, if_neg (by omega),
    read_header_write_header base _ cs hbase hcs hmax]
  show (match encrypted_plaintext_len (write_header base cs ++
      (encryptChunks aeadSeal base cs b.length 0 b).1) with
    | none => none
    | some total_plain =>
      if total_plain = 0 then some ([], 0)
      else
        match parallelChunks aeadOpen (write_header base cs ++
            (encryptChunks aeadSeal base cs b.length 0 b).1) base cs
            ((total_plain + cs - 1) / cs) total_plain
            ((total_plain + cs - 1) / cs) 0 (List.replicate total_plain 0) with
        | none => none
        | some out => some (out, total_plain))
    = some (b, b.length)
  rw [encrypted_plaintext_len_of_encrypt aeadSeal base b cs hlen hbase hcs hmax hb]
  show (if b.length = 0 then some ([], 0)
    else
      match parallelChunks aeadOpen (write_header base cs ++
          (encryptChunks aeadSeal base cs b.length 0 b).1) base cs
          ((b.length + cs - 1) / cs) b.length
          ((b.length + cs - 1) / cs) 0 (List.replicate b.length 0) with
      | none => none
      | some out => some (out, b.length))
    = some (b, b.length)
  rw [if_neg (by omega), hdivk]
  have hbuf : (List.replicate b.length 0 : List Nat)
      = b.take (0 * cs) ++ List.replicate (b.length - 0 * cs) 0 := by simp
  rw [hbuf, parallelChunks_invariant aeadSeal aeadOpen base cs hopen hlen hbase hcs
    b hb k hk1 hklt hkle hkl k 0 (by omega)]

/-- C3, the claim as frozen is false: the container of the empty plaintext
(21 header bytes, produced by `encrypt_stream`) decrypts serially to zero
bytes, yet `decrypt_file_parallel` fails for every worker count because
its `encrypted_plaintext_len` call rejects the file. -/
theorem c3_empty_container_counterexample :
    encrypt_stream mockSeal (List.replicate 12 0) []
      = some (write_header (List.replicate 12 0) DEFAULT_CHUNK_SIZE, 0) ∧
    decrypt_stream mockOpen (write_header (List.replicate 12 0) DEFAULT_CHUNK_SIZE)
      = some ([], 0) ∧
    decrypt_file_parallel mockOpen
      (write_header (List.replicate 12 0) DEFAULT_CHUNK_SIZE) 1 = none ∧
    decrypt_file_parallel mockOpen
      (write_header (List.replicate 12 0) DEFAULT_CHUNK_SIZE) 4 = none := by
  refine ⟨?_, ?_, ?_, ?_⟩ <;> decide

theorem c3_parallel_matches_serial_witness :
    decrypt_file_parallel mockOpen
      (write_header (List.replicate 12 0) 2 ++
        (encryptChunks mockSeal (List.replicate 12 0) 2
          ([1, 2, 3, 4, 5] : List Nat).length 0 [1, 2, 3, 4, 5]).1) 3
      = some ([1, 2, 3, 4, 5], 5) ∧
    decrypt_stream mockOpen
      (write_header (List.replicate 12 0) 2 ++
        (encryptChunks mockSeal (List.replicate 12 0) 2
          ([1, 2, 3, 4, 5] : List Nat).length 0 [1, 2, 3, 4, 5]).1)
      = some ([1, 2, 3, 4, 5], 5) :=
  c3_parallel_matches_serial mockSeal mockOpen mockOpen_mockSeal mockSeal_length
    (List.replicate 12 0) [1, 2, 3, 4, 5] 2 3 (by decide) (by decide) (by decide)
    (by decide) (by decide)

/-! ## The BINARY-collation order on TEXT ids -/

theorem bytesLt_irrefl : ∀ a, bytesLt a a = false := by
  intro a
  induction a with
  | nil => rfl
  | cons x xs ih => simp [bytesLt, ih]

theorem bytesLt_asymm : ∀ a b, bytesLt a b = true → bytesLt b a = false := by
  intro a
  induction a with
  | nil =>
    intro b _
    cases b with
    | nil => rfl
    | cons y ys => rfl
  | cons x xs ih =>
    intro b hab
    cases b with
    | nil => exact absurd hab (by simp [bytesLt])
    | cons y ys =>
      simp only [bytesLt, Bool.or_eq_true, Bool.and_eq_true, decide_eq_true_eq] at hab
      simp only [bytesLt, Bool.or_eq_false_iff, Bool.and_eq_false_iff,
        decide_eq_false_iff_not]
      rcases hab with h | ⟨heq, hrest⟩
      · exact ⟨by omega, Or.inl (by omega)⟩
      · exact ⟨by omega, Or.inr (ih ys hrest)⟩

theorem bytesLt_trans : ∀ a b c,
    bytesLt a b = true → bytesLt b c = true → bytesLt a c = true := by
  intro a
  induction a with
  | nil =>
    intro b c hab hbc
    cases b with
    | nil => exact absurd hab (by simp [bytesLt])
    | cons y ys =>
      cases c with
      | nil => exact absurd hbc (by simp [bytesLt])
      | cons z zs => rfl
  | cons x xs ih =>
    intro b c hab hbc
    cases b with
    | nil => exact absurd hab (by simp [bytesLt])
    | cons y ys =>
      cases c with
      | nil => exact absurd hbc (by simp [bytesLt])
      | cons z zs =>
        simp only [bytesLt, Bool.or_eq_true, Bool.and_eq_true,
          decide_eq_true_eq] at hab hbc ⊢
        rcases hab with h1 | ⟨he1, hr1⟩ <;> rcases hbc with h2 | ⟨he2, hr2⟩
        · exact Or.inl (by omega)
        · exact Or.inl (by omega)
        · exact Or.inl (by omega)
        · exact Or.inr ⟨by omega, ih ys zs hr1 hr2⟩

theorem bytesLt_connex : ∀ a b,
    bytesLt a b = false → bytesLt b a = false → a = b := by
  intro a
  induction a with
  | nil =>
    intro b hab _
    cases b with
    | nil => rfl
    | cons y ys => exact absurd hab (by simp [bytesLt])
  | cons x xs ih =>
    intro b hab hba
    cases b with
    | nil => exact absurd hba (by simp [bytesLt])
    | cons y ys =>
      simp only [bytesLt, Bool.or_eq_false_iff, Bool.and_eq_false_iff,
        decide_eq_false_iff_not] at hab hba
      obtain ⟨hlt1, h1⟩ := hab
      obtain ⟨hlt2, h2⟩ := hba
      have hxy : x = y := by omega
      subst hxy
      have hxs : bytesLt xs ys = false := by
        rcases h1 with h1 | h1
        · exact absurd rfl h1
        · exact h1
      have hys : bytesLt ys xs = false := by
        rcases h2 with h2 | h2
        · exact absurd rfl h2
        · exact h2
      rw [ih ys hxs hys]

theorem strBytes_inj : ∀ a b : String, strBytes a = strBytes b → a = b := by
  intro a b h
  have hc : Function.Injective Char.toNat := by
    intro c d hcd
    exact Char.ext (UInt32.ext hcd)
  exact String.ext (List.map_injective_iff.mpr hc h)

theorem idLt_irrefl (a : String) : idLt a a = false := bytesLt_irrefl _

theorem idLt_asymm (a b : String) (h : idLt a b = true) : idLt b a = false :=
  bytesLt_asymm _ _ h

theorem idLt_trans (a b c : String) (h1 : idLt a b = true) (h2 : idLt b c = true) :
    idLt a c = true := bytesLt_trans _ _ _ h1 h2

theorem idLt_connex (a b : String) (h1 : idLt a b = false)
    (h2 : idLt b a = false) : a = b :=
  strBytes_inj a b (bytesLt_connex _ _ h1 h2)

/-! ## Cursor pagination (C6) -/

/-- The strict version of the `(sort_ts DESC, id DESC)` order: `a` comes
strictly before `b`. -/
def msgDescLt (a b : MessageRow) : Prop :=
  coalesce_ts b < coalesce_ts a ∨
    (coalesce_ts a = coalesce_ts b ∧ idLt b.id a.id = true)

theorem msgDescLe_total (a b : MessageRow) :
    msgDescLe a b = true ∨ msgDescLe b a = true := by
  simp only [msgDescLe, Bool.or_eq_true, Bool.and_eq_true, decide_eq_true_eq]
  rcases lt_trichotomy (coalesce_ts a) (coalesce_ts b) with h | h | h
  · exact Or.inr (Or.inl h)
  · rcases hid : idLt b.id a.id with hf | ht
    · rcases hid2 : idLt a.id b.id with hf2 | ht2
      · exact Or.inl (Or.inr ⟨h, Or.inr (idLt_connex _ _ hid2 hid)⟩)
      · exact Or.inr (Or.inr ⟨h.symm, Or.inl rfl⟩)
    · exact Or.inl (Or.inr ⟨h, Or.inl rfl⟩)
  · exact Or.inl (Or.inl h)

theorem msgDescLe_trans (a b c : MessageRow) (h1 : msgDescLe a b = true)
    (h2 : msgDescLe b c = true) : msgDescLe a c = true := by
  simp only [msgDescLe, Bool.or_eq_true, Bool.and_eq_true, decide_eq_true_eq] at h1 h2 ⊢
  rcases h1 with h1 | ⟨he1, hr1⟩ <;> rcases h2 with h2 | ⟨he2, hr2⟩
  · exact Or.inl (by omega)
  · exact Or.inl (by omega)
  · exact Or.inl (by omega)
  · refine Or.inr ⟨by omega, ?_⟩
    rcases hr1 with hr1 | hr1 <;> rcases hr2 with hr2 | hr2
    · exact Or.inl (idLt_trans _ _ _ hr2 hr1)
    · exact Or.inl (by rwa [hr2] at hr1)
    · exact Or.inl (by rwa [← hr1] at hr2)
    · exact Or.inr (by rw [hr1, hr2])

theorem msgDescLt_asymm (a b : MessageRow) (h1 : msgDescLt a b)
    (h2 : msgDescLt b a) : False := by
  rcases h1 with h1 | ⟨he1, hr1⟩ <;> rcases h2 with h2 | ⟨he2, hr2⟩
  · omega
  · omega
  · omega
  · have := idLt_asymm _ _ hr1
    rw [hr2] at this
    exact Bool.false_ne_true this.symm

theorem msgDescLe_ne_lt (a b : MessageRow) (h : msgDescLe a b = true)
    (hne : a.id ≠ b.id) : msgDescLt a b := by
  simp only [msgDescLe, Bool.or_eq_true, Bool.and_eq_true, decide_eq_true_eq] at h
  rcases h with h | ⟨he, hr⟩
  · exact Or.inl h
  · rcases hr with hr | hr
    · exact Or.inr ⟨he, hr⟩
    · exact absurd hr hne

theorem msgDescLt_irrefl (a : MessageRow) : ¬ msgDescLt a a := by
  intro h
  exact msgDescLt_asymm a a h h

theorem insertionSort_pairwise_lt (l : List MessageRow)
    (h : (l.map fun m => m.id).Nodup) :
    (l.insertionSort (fun a b => msgDescLe a b = true)).Pairwise msgDescLt := by
  haveI : IsTotal MessageRow (fun a b => msgDescLe a b = true) := ⟨msgDescLe_total⟩
  haveI : IsTrans MessageRow (fun a b => msgDescLe a b = true) :=
    ⟨msgDescLe_trans⟩
  have h1 := List.sorted_insertionSort (fun a b => msgDescLe a b = true) l
  have hperm := (List.perm_insertionSort (fun a b => msgDescLe a b = true) l).map
    (fun m => m.id)
  have h2 : ((l.insertionSort (fun a b => msgDescLe a b = true)).map
      fun m => m.id).Nodup := h.perm hperm.symm
  rw [List.Nodup, List.pairwise_map] at h2
  exact (List.Pairwise.and h1 h2).imp fun hab => msgDescLe_ne_lt _ _ hab.1 hab.2

theorem threadDesc_pairwise_lt (msgs : List MessageRow) (tid : String)
    (h : (msgs.map fun m => m.id).Nodup) :
    (threadDesc msgs tid).Pairwise msgDescLt := by
  apply insertionSort_pairwise_lt
  exact List.Nodup.sublist
    (List.Sublist.map _ (List.filter_sublist msgs)) h

theorem sort_filter_comm (msgs : List MessageRow) (tid : String)
    (p : MessageRow → Bool) (h : (msgs.map fun m => m.id).Nodup) :
    ((msgs.filter fun m => decide (m.thread_id = tid) && p m).insertionSort
      (fun a b => msgDescLe a b = true))
    = (threadDesc msgs tid).filter p := by
  haveI : IsAntisymm MessageRow msgDescLt :=
    ⟨fun a b h1 h2 => (msgDescLt_asymm a b h1 h2).elim⟩
  have heqf : (msgs.filter fun m => decide (m.thread_id = tid)).filter p
      = msgs.filter fun m => decide (m.thread_id = tid) && p m := by
    rw [List.filter_filter]
    exact List.filter_congr fun m _ => Bool.and_comm _ _
  have hperm1 : ((msgs.filter fun m =>
      decide (m.thread_id = tid) && p m).insertionSort
      (fun a b => msgDescLe a b = true)).Perm
      ((msgs.filter fun m => decide (m.thread_id = tid)).filter p) := by
    rw [heqf]
    exact List.perm_insertionSort _ _
  have hperm2 : ((threadDesc msgs tid).filter p).Perm
      ((msgs.filter fun m => decide (m.thread_id = tid)).filter p) :=
    List.Perm.filter p (List.perm_insertionSort _ _)
  have hs1 : ((msgs.filter fun m =>
      decide (m.thread_id = tid) && p m).insertionSort
      (fun a b => msgDescLe a b = true)).Pairwise msgDescLt := by
    apply insertionSort_pairwise_lt
    exact List.Nodup.sublist (List.Sublist.map _ (List.filter_sublist msgs)) h
  have hs2 : ((threadDesc msgs tid).filter p).Pairwise msgDescLt :=
    List.Pairwise.sublist (List.filter_sublist _)
      (threadDesc_pairwise_lt msgs tid h)
  exact List.eq_of_perm_of_sorted (r := msgDescLt)
    (hperm1.trans hperm2.symm) hs1 hs2

theorem list_messages_cursor (msgs : List MessageRow) (tid : String)
    (ts : Int) (id : String) (limit : Nat)
    (h : (msgs.map fun m => m.id).Nodup) :
    list_messages msgs tid (some ts) (some id) limit
      = ((threadDesc msgs tid).filter (beforeCursor ts id)).take limit := by
  show ((msgs.filter fun m =>
      decide (m.thread_id = tid) && beforeCursor ts id m).insertionSort
      (fun a b => msgDescLe a b = true)).take limit = _
  rw [sort_filter_comm msgs tid _ h]

theorem beforeCursor_get (x m : MessageRow) :
    beforeCursor (coalesce_ts x) x.id m = true ↔ msgDescLt x m := by
  simp only [beforeCursor, msgDescLt, Bool.or_eq_true, Bool.and_eq_true,
    decide_eq_true_eq]
  constructor
  · rintro (h | ⟨he, hr⟩)
    · exact Or.inl h
    · exact Or.inr ⟨he.symm, hr⟩
  · rintro (h | ⟨he, hr⟩)
    · exact Or.inl h
    · exact Or.inr ⟨he.symm, hr⟩

theorem filter_cursor_drop :
    ∀ (S : List MessageRow), S.Pairwise msgDescLt →
      ∀ j (hj : j < S.length),
        S.filter (fun m =>
          beforeCursor (coalesce_ts (S.get ⟨j, hj⟩)) (S.get ⟨j, hj⟩).id m)
        = S.drop (j + 1) := by
  intro S
  induction S with
  | nil =>
    intro _ j hj
    exact absurd hj (by simp)
  | cons a S ih =>
    intro hS j hj
    obtain ⟨ha, hS2⟩ := List.pairwise_cons.mp hS
    match j with
    | 0 =>
      show List.filter _ (a :: S) = S
      rw [List.filter_cons_of_neg]
      · apply List.filter_eq_self.mpr
        intro m hm
        exact (beforeCursor_get a m).mpr (ha m hm)
      · intro hx
        exact msgDescLt_irrefl a ((beforeCursor_get a a).mp hx)
    | j + 1 =>
      have hj2 : j < S.length := by simpa using hj
      have hget : ∀ h : j + 1 < (a :: S).length,
          (a :: S).get ⟨j + 1, h⟩ = S.get ⟨j, hj2⟩ := fun _ => rfl
      rw [hget hj]
      show List.filter _ (a :: S) = (a :: S).drop (j + 2)
      rw [List.filter_cons_of_neg, List.drop_succ_cons]
      · exact ih hS2 j _
      · intro hx
        have hmem := List.get_mem S j hj2
        exact msgDescLt_asymm _ _ (ha _ hmem) ((beforeCursor_get _ a).mp hx)

theorem pagesFrom_eq_drop (msgs : List MessageRow) (tid : String) (limit : Nat)
    (hnodup : (msgs.map fun m => m.id).Nodup) (hlim : 0 < limit) :
    ∀ fuel k, k ≤ (threadDesc msgs tid).length →
      (threadDesc msgs tid).length - k ≤ fuel →
      ∀ c : Option (Int × String),
      (match c with
        | none => list_messages msgs tid none none limit
        | some (ts, id) => list_messages msgs tid (some ts) (some id) limit)
        = (((threadDesc msgs tid).drop k).take limit) →
      pagesFrom msgs tid limit c fuel = (threadDesc msgs tid).drop k := by
  intro fuel
  induction fuel with
  | zero =>
    intro k hk hfuel c _
    have : (threadDesc msgs tid).drop k = [] :=
      List.drop_eq_nil_of_le (by omega)
    rw [this]
    rfl
  | succ fuel ih =>
    intro k hk hfuel c hc
    show (match (match c with
        | none => list_messages msgs tid none none limit
        | some (ts, id) =>
          list_messages msgs tid (some ts) (some id) limit).getLast? with
      | none => []
      | some last => (match c with
          | none => list_messages msgs tid none none limit
          | some (ts, id) =>
            list_messages msgs tid (some ts) (some id) limit) ++
          pagesFrom msgs tid limit (some (coalesce_ts last, last.id)) fuel)
      = (threadDesc msgs tid).drop k
    rw [hc]
    by_cases hD : (threadDesc msgs tid).drop k = []
    · -- past the end: the page is empty and pagination stops
      rw [hD]
      simp
    · -- a non-empty page
      have hDlen : ((threadDesc msgs tid).drop k).length
          = (threadDesc msgs tid).length - k := List.length_drop _ _
      have hDpos : 1 ≤ (threadDesc msgs tid).length - k := by
        have := List.length_pos.mpr hD
        omega
      have hpage_ne : (((threadDesc msgs tid).drop k).take limit) ≠ [] := by
        intro hx
        have := congrArg List.length hx
        rw [List.length_take, hDlen] at this
        simp at this
        omega
      have hplen : (((threadDesc msgs tid).drop k).take limit).length
          = min limit ((threadDesc msgs tid).length - k) := by
        rw [List.length_take, hDlen]
      have hplen_pos : 1 ≤ (((threadDesc msgs tid).drop k).take limit).length := by
        rw [hplen]; omega
      -- the last row of the page is the row of the full thread at
      -- index k + page length - 1
      have hj : k + (min limit ((threadDesc msgs tid).length - k) - 1)
          < (threadDesc msgs tid).length := by omega
      have hlast : (((threadDesc msgs tid).drop k).take limit).getLast hpage_ne
          = (threadDesc msgs tid).get
              ⟨k + (min limit ((threadDesc msgs tid).length - k) - 1), hj⟩ := by
        rw [List.getLast_eq_getElem]
        rw [List.getElem_take, List.getElem_drop]
        congr 1
        rw [hplen]
      have hgl : (((threadDesc msgs tid).drop k).take limit).getLast?
          = some ((((threadDesc msgs tid).drop k).take limit).getLast hpage_ne) :=
        List.getLast?_eq_getLast _ hpage_ne
      rw [hgl, hlast]
      show List.take limit ((threadDesc msgs tid).drop k) ++
          pagesFrom msgs tid limit _ fuel = (threadDesc msgs tid).drop k
      have hnext : pagesFrom msgs tid limit
          (some (coalesce_ts ((threadDesc msgs tid).get
              ⟨k + (min limit ((threadDesc msgs tid).length - k) - 1), hj⟩),
            ((threadDesc msgs tid).get
              ⟨k + (min limit ((threadDesc msgs tid).length - k) - 1), hj⟩).id)) fuel
          = (threadDesc msgs tid).drop
              (k + min limit ((threadDesc msgs tid).length - k)) := by
        apply ih
        · omega
        · omega
        · show list_messages msgs tid (some _) (some _) limit = _
          rw [list_messages_cursor msgs tid _ _ limit hnodup,
            filter_cursor_drop (threadDesc msgs tid)
              (threadDesc_pairwise_lt msgs tid hnodup) _ hj]
          congr 2
          omega
      rw [hnext]
      -- the page concatenated with the remaining pages restores the suffix
      have htk : ((threadDesc msgs tid).drop k).take limit
          = ((threadDesc msgs tid).drop k).take
              (min limit ((threadDesc msgs tid).length - k)) := by
        apply List.take_eq_take.mpr
        rw [hDlen]
        omega
      have hdd : (threadDesc msgs tid).drop
          (k + min limit ((threadDesc msgs tid).length - k))
          = ((threadDesc msgs tid).drop k).drop
              (min limit ((threadDesc msgs tid).length - k)) := by
        rw [List.drop_drop]
      rw [htk, hdd, List.take_append_drop]

/-- C6: the `list_messages` cursor page for `(before_ts, before_id)` is
exactly the thread's `(sort_ts DESC, id DESC)`-ordered rows satisfying
`sort_ts < before_ts OR (sort_ts = before_ts AND id < before_id)`, up to
the limit; and repeated pagination from the last row of each page
concatenates to the full thread in that order, with no duplicates or
gaps.  Hypotheses: message ids are unique (the `messages` primary key)
and the page size is positive. -/
theorem c6_cursor_pagination (msgs : List MessageRow) (tid : String)
    (limit : Nat) (hnodup : (msgs.map fun m => m.id).Nodup)
    (hlim : 0 < limit) :
    (∀ ts id, list_messages msgs tid (some ts) (some id) limit
        = ((threadDesc msgs tid).filter (beforeCursor ts id)).take limit) ∧
    ∀ fuel, (threadDesc msgs tid).length ≤ fuel →
      pagesFrom msgs tid limit none fuel = threadDesc msgs tid := by
  constructor
  · intro ts id
    exact list_messages_cursor msgs tid ts id limit hnodup
  · intro fuel hfuel
    have h := pagesFrom_eq_drop msgs tid limit hnodup hlim fuel 0
      (by omega) (by omega) none (by simp [list_messages, threadDesc])
    simpa using h

theorem c6_cursor_pagination_witness :
    list_messages wMsgs "t" (some 5) (some "b") 2
      = ((threadDesc wMsgs "t").filter (beforeCursor 5 "b")).take 2 ∧
    pagesFrom wMsgs "t" 2 none 3 = threadDesc wMsgs "t" :=
  ⟨(c6_cursor_pagination wMsgs "t" 2 (by decide) (by decide)).1 5 "b",
   (c6_cursor_pagination wMsgs "t" 2 (by decide) (by decide)).2 3 (by decide)⟩

/-! ## Scrapbook discontinuity (C4) -/

theorem scrapbookFlags_length (msgs : List MessageRow) :
    ∀ (page : List (MessageRow × Option String × Int)) (p : Option MessageRow),
      (scrapbookFlags msgs p page).length = page.length := by
  intro page
  induction page with
  | nil => intro p; rfl
  | cons x rest ih =>
    intro p
    match x with
    | (m, tname, ta) => simp [scrapbookFlags, ih]

theorem scrapbookFlags_get_zero (msgs : List MessageRow)
    (page : List (MessageRow × Option String × Int)) (p : Option MessageRow)
    (h : 0 < (scrapbookFlags msgs p page).length) (h2 : 0 < page.length) :
    (scrapbookFlags msgs p page).get ⟨0, h⟩
      = ⟨(page.get ⟨0, h2⟩).1, (page.get ⟨0, h2⟩).2.1,
          scrapDisc msgs p (page.get ⟨0, h2⟩).1⟩ := by
  match page, h2 with
  | (m, tname, ta) :: rest, _ => rfl

theorem scrapbookFlags_get_succ (msgs : List MessageRow) :
    ∀ (page : List (MessageRow × Option String × Int)) (p : Option MessageRow)
      (i : Nat) (hi : i + 1 < page.length)
      (hi2 : i + 1 < (scrapbookFlags msgs p page).length),
      (scrapbookFlags msgs p page).get ⟨i + 1, hi2⟩
        = ⟨(page.get ⟨i + 1, hi⟩).1, (page.get ⟨i + 1, hi⟩).2.1,
            scrapDisc msgs (some (page.get ⟨i, by omega⟩).1)
              (page.get ⟨i + 1, hi⟩).1⟩ := by
  intro page
  induction page with
  | nil =>
    intro p i hi _
    exact absurd hi (by simp)
  | cons x rest ih =>
    intro p i hi hi2
    match x with
    | (m, tname, ta) =>
      match i with
      | 0 =>
        have hr : 0 < rest.length := by simpa using hi
        have hr2 : 0 < (scrapbookFlags msgs (some m) rest).length := by
          rw [scrapbookFlags_length]; exact hr
        show (scrapbookFlags msgs (some m) rest).get ⟨0, hr2⟩ = _
        rw [scrapbookFlags_get_zero msgs rest (some m) hr2 hr]
        rfl
      | i + 1 =>
        have hr : i + 1 < rest.length := by simpa using hi
        have hr2 : i + 1 < (scrapbookFlags msgs (some m) rest).length := by
          rw [scrapbookFlags_length]; exact hr
        show (scrapbookFlags msgs (some m) rest).get ⟨i + 1, hr2⟩ = _
        rw [ih (some m) i hr hr2]
        rfl

theorem scrapbookPage_mem_msgs (msgs : List MessageRow)
    (mtags : List MessageTagRow) (threads : List ThreadRow) (tag_id : String)
    (before_ts : Option Int) (before_id : Option String) (limit : Nat)
    (r : MessageRow × Option String × Int)
    (hr : r ∈ scrapbookPage msgs mtags threads tag_id before_ts before_id limit) :
    r.1 ∈ msgs := by
  have h1 : r ∈ (((scrapbookJoin msgs mtags threads tag_id).filter _).insertionSort
      (fun a b => scrapDescLe a b = true)) := List.mem_of_mem_take hr
  have h2 : r ∈ (scrapbookJoin msgs mtags threads tag_id).filter _ :=
    (List.perm_insertionSort _ _).mem_iff.mp h1
  have h3 : r ∈ scrapbookJoin msgs mtags threads tag_id :=
    List.mem_of_mem_filter h2
  simp only [scrapbookJoin, List.mem_flatMap, List.mem_map, List.mem_filter] at h3
  obtain ⟨mt, _, m, hm, t, _, heq⟩ := h3
  have : r.1 = m := by rw [← heq]
  rw [this]
  exact hm.1

theorem nodup_id_unique (msgs : List MessageRow)
    (hnodup : (msgs.map fun m => m.id).Nodup)
    (a b : MessageRow) (ha : a ∈ msgs) (hb : b ∈ msgs) (hid : a.id = b.id) :
    a = b :=
  List.inj_on_of_nodup_map hnodup ha hb hid

theorem are_messages_adjacent_iff (msgs : List MessageRow)
    (hnodup : (msgs.map fun m => m.id).Nodup)
    (e l : MessageRow) (he : e ∈ msgs) (hl : l ∈ msgs)
    (hth : e.thread_id = l.thread_id) :
    (are_messages_adjacent msgs e.id l.id = false
      ↔ ∃ m3 ∈ msgs, m3.thread_id = e.thread_id ∧
          timelineLt e m3 = true ∧ timelineLt m3 l = true) := by
  rw [are_messages_adjacent]
  simp only [decide_eq_false_iff_not]
  constructor
  · intro hne
    have hexne : (msgs.flatMap fun m1 => msgs.map fun m2 => (m1, m2)).filter
        (fun p => decide (p.1.id = e.id) && decide (p.2.id = l.id) &&
          decide (p.1.thread_id = p.2.thread_id) &&
          (msgs.any fun m3 => decide (m3.thread_id = p.1.thread_id) &&
            timelineLt p.1 m3 && timelineLt m3 p.2)) ≠ [] := by
      intro hx
      exact hne (by rw [hx]; rfl)
    have hex : ∃ x, x ∈ (msgs.flatMap fun m1 => msgs.map fun m2 => (m1, m2)).filter
        (fun p => decide (p.1.id = e.id) && decide (p.2.id = l.id) &&
          decide (p.1.thread_id = p.2.thread_id) &&
          (msgs.any fun m3 => decide (m3.thread_id = p.1.thread_id) &&
            timelineLt p.1 m3 && timelineLt m3 p.2)) := by
      match hm : (msgs.flatMap fun m1 => msgs.map fun m2 => (m1, m2)).filter _, hexne with
      | x :: xs, _ => exact ⟨x, by simp⟩
    obtain ⟨⟨m1, m2⟩, hx⟩ := hex
    rw [List.mem_filter] at hx
    obtain ⟨hmem, hpred⟩ := hx
    simp only [List.mem_flatMap, List.mem_map] at hmem
    obtain ⟨a1, ha1, a2, ha2, heq⟩ := hmem
    have h1 : a1 = m1 := congrArg Prod.fst heq
    have h2 : a2 = m2 := congrArg Prod.snd heq
    simp only [Bool.and_eq_true] at hpred
    obtain ⟨⟨⟨hid1, hid2⟩, hthp⟩, hany⟩ := hpred
    rw [List.any_eq_true] at hany
    obtain ⟨m3, hm3, hb⟩ := hany
    simp only [Bool.and_eq_true] at hb
    obtain ⟨⟨hb1, hb2⟩, hb3⟩ := hb
    have hid1 := of_decide_eq_true hid1
    have hid2 := of_decide_eq_true hid2
    have hb1 := of_decide_eq_true hb1
    have hm1e : m1 = e :=
      nodup_id_unique msgs hnodup m1 e (h1 ▸ ha1) he hid1
    have hm2l : m2 = l :=
      nodup_id_unique msgs hnodup m2 l (h2 ▸ ha2) hl hid2
    subst hm1e
    subst hm2l
    exact ⟨m3, hm3, hb1, hb2, hb3⟩
  · rintro ⟨m3, hm3, hth3, hlt1, hlt2⟩
    intro hzero
    have hnil := List.length_eq_zero.mp hzero
    have hpair : (e, l) ∈ (msgs.flatMap fun m1 => msgs.map fun m2 => (m1, m2)) := by
      simp only [List.mem_flatMap, List.mem_map]
      exact ⟨e, he, l, hl, rfl⟩
    have hpred : (decide ((e, l).1.id = e.id) && decide ((e, l).2.id = l.id) &&
        decide ((e, l).1.thread_id = (e, l).2.thread_id) &&
        (msgs.any fun m3 => decide (m3.thread_id = (e, l).1.thread_id) &&
          timelineLt (e, l).1 m3 && timelineLt m3 (e, l).2)) = true := by
      simp only [Bool.and_eq_true]
      refine ⟨⟨⟨by simp, by simp⟩, decide_eq_true hth⟩, ?_⟩
      rw [List.any_eq_true]
      refine ⟨m3, hm3, ?_⟩
      simp only [Bool.and_eq_true]
      exact ⟨⟨decide_eq_true hth3, hlt1⟩, hlt2⟩
    have hmemf : (e, l) ∈ (msgs.flatMap fun m1 => msgs.map fun m2 => (m1, m2)).filter
        (fun p => decide (p.1.id = e.id) && decide (p.2.id = l.id) &&
          decide (p.1.thread_id = p.2.thread_id) &&
          (msgs.any fun m3 => decide (m3.thread_id = p.1.thread_id) &&
            timelineLt p.1 m3 && timelineLt m3 p.2)) :=
      List.mem_filter.mpr ⟨hpair, hpred⟩
    rw [hnil] at hmemf
    exact absurd hmemf (List.not_mem_nil _)

theorem scrapbookFlags_get_message (msgs : List MessageRow) :
    ∀ (page : List (MessageRow × Option String × Int)) (p : Option MessageRow)
      (i : Nat) (hi : i < page.length) (hi2 : i < (scrapbookFlags msgs p page).length),
      ((scrapbookFlags msgs p page).get ⟨i, hi2⟩).message = (page.get ⟨i, hi⟩).1 := by
  intro page p i hi hi2
  match i with
  | 0 => rw [scrapbookFlags_get_zero msgs page p hi2 hi]
  | i + 1 => rw [scrapbookFlags_get_succ msgs page p i hi hi2]

/-- C4, the claim as frozen is false.  In a thread with messages `a`,
`b`, `c` all at `sort_ts` 5, tag `a` then `c`: the scrapbook shows
`[c, a]`, a same-thread neighbour pair with equal timestamps whose
claim-side `(earlier, later)` — ordered with the id tie-break — is
`(a, c)`, and `b` lies strictly between them in the `(sort_ts, id)`
order, so the claim demands `is_discontinuous = true`; the code reports
`false` because it takes the previous result `c` as `earlier` without a
tie-break, producing the empty interval `(c, a)`. -/
theorem c4_tiebreak_counterexample :
    ((list_scrapbook_messages cexMsgs cexTags cexThreads "T" none none 10).map
      fun r => (r.message.id, r.is_discontinuous)) = [("c", false), ("a", false)] ∧
    (cexMsgs.any fun m3 => decide (m3.thread_id = "t") &&
      timelineLt { id := "a", thread_id := "t", sent_at := some 5 } m3 &&
      timelineLt m3 { id := "c", thread_id := "t", sent_at := some 5 }) = true := by
  refine ⟨?_, ?_⟩ <;> decide

/-- C4 (amended): in `list_scrapbook_messages`, the first result and every
cross-thread transition carry `is_discontinuous = false`; for a
same-thread neighbour pair the code orders the two messages by
`COALESCE(sent_at, received_at, 0)` ALONE — the previous result is taken
as `earlier` on ties, with no id tie-break — and `is_discontinuous` is
true iff some message of the thread lies strictly between that `earlier`
and `later` in the lexicographic `(timestamp, id)` order. -/
theorem c4_scrapbook_discontinuity
    (msgs : List MessageRow) (mtags : List MessageTagRow)
    (threads : List ThreadRow) (tag_id : String)
    (before_ts : Option Int) (before_id : Option String) (limit : Nat)
    (hnodup : (msgs.map fun m => m.id).Nodup) :
    let R := list_scrapbook_messages msgs mtags threads tag_id before_ts before_id limit
    (∀ h0 : 0 < R.length, (R.get ⟨0, h0⟩).is_discontinuous = false) ∧
    ∀ i (hi : i + 1 < R.length),
      ((R.get ⟨i, by omega⟩).message.thread_id
          ≠ (R.get ⟨i + 1, hi⟩).message.thread_id →
        (R.get ⟨i + 1, hi⟩).is_discontinuous = false) ∧
      ((R.get ⟨i, by omega⟩).message.thread_id
          = (R.get ⟨i + 1, hi⟩).message.thread_id →
        ((R.get ⟨i + 1, hi⟩).is_discontinuous = true ↔
          ∃ m3 ∈ msgs,
            m3.thread_id = (R.get ⟨i + 1, hi⟩).message.thread_id ∧
            (if coalesce_ts (R.get ⟨i + 1, hi⟩).message
                < coalesce_ts (R.get ⟨i, by omega⟩).message
             then timelineLt (R.get ⟨i + 1, hi⟩).message m3 = true ∧
                  timelineLt m3 (R.get ⟨i, by omega⟩).message = true
             else timelineLt (R.get ⟨i, by omega⟩).message m3 = true ∧
                  timelineLt m3 (R.get ⟨i + 1, hi⟩).message = true))) := by
  intro R
  have hRlen : R.length
      = (scrapbookPage msgs mtags threads tag_id before_ts before_id limit).length :=
    scrapbookFlags_length msgs _ none
  constructor
  · intro h0
    have hp0 : 0 < (scrapbookPage msgs mtags threads tag_id before_ts
        before_id limit).length := by rw [← hRlen]; exact h0
    show ((scrapbookFlags msgs none _).get ⟨0, h0⟩).is_discontinuous = false
    rw [scrapbookFlags_get_zero msgs _ none h0 hp0]
    rfl
  · intro i hi
    have hip : i + 1 < (scrapbookPage msgs mtags threads tag_id before_ts
        before_id limit).length := by rw [← hRlen]; exact hi
    have hip0 : i < (scrapbookPage msgs mtags threads tag_id before_ts
        before_id limit).length := by omega
    have hgets : R.get ⟨i + 1, hi⟩
        = ⟨((scrapbookPage msgs mtags threads tag_id before_ts before_id limit).get
            ⟨i + 1, hip⟩).1,
           ((scrapbookPage msgs mtags threads tag_id before_ts before_id limit).get
            ⟨i + 1, hip⟩).2.1,
           scrapDisc msgs
             (some ((scrapbookPage msgs mtags threads tag_id before_ts
               before_id limit).get ⟨i, by omega⟩).1)
             ((scrapbookPage msgs mtags threads tag_id before_ts before_id limit).get
               ⟨i + 1, hip⟩).1⟩ :=
      scrapbookFlags_get_succ msgs _ none i hip hi
    have hgetm : (R.get ⟨i, by omega⟩).message
        = ((scrapbookPage msgs mtags threads tag_id before_ts before_id limit).get
            ⟨i, hip0⟩).1 :=
      scrapbookFlags_get_message msgs _ none i hip0
        (by rw [scrapbookFlags_length]; omega)
    have hprev_mem : ((scrapbookPage msgs mtags threads tag_id before_ts
        before_id limit).get ⟨i, hip0⟩).1 ∈ msgs :=
      scrapbookPage_mem_msgs msgs mtags threads tag_id before_ts before_id limit _
        (List.get_mem _ i hip0)
    have hcurr_mem : ((scrapbookPage msgs mtags threads tag_id before_ts
        before_id limit).get ⟨i + 1, hip⟩).1 ∈ msgs :=
      scrapbookPage_mem_msgs msgs mtags threads tag_id before_ts before_id limit _
        (List.get_mem _ (i + 1) hip)
    have hm1 : (R.get ⟨i + 1, hi⟩).message
        = ((scrapbookPage msgs mtags threads tag_id before_ts before_id limit).get
            ⟨i + 1, hip⟩).1 := by rw [hgets]
    have hd1 : (R.get ⟨i + 1, hi⟩).is_discontinuous
        = scrapDisc msgs
            (some ((scrapbookPage msgs mtags threads tag_id before_ts
              before_id limit).get ⟨i, hip0⟩).1)
            ((scrapbookPage msgs mtags threads tag_id before_ts before_id limit).get
              ⟨i + 1, hip⟩).1 := by rw [hgets]
    constructor
    · intro hne
      rw [hgetm, hm1] at hne
      rw [hd1]
      simp only [scrapDisc]
      rw [if_neg hne]
    · intro hsame
      rw [hgetm, hm1] at hsame
      rw [hd1, hm1, hgetm]
      simp only [scrapDisc]
      rw [if_pos hsame]
      by_cases hcase : coalesce_ts ((scrapbookPage msgs mtags threads tag_id
          before_ts before_id limit).get ⟨i + 1, hip⟩).1
          < coalesce_ts ((scrapbookPage msgs mtags threads tag_id
          before_ts before_id limit).get ⟨i, hip0⟩).1
      · rw [if_pos hcase]
        rw [Bool.not_eq_true', are_messages_adjacent_iff msgs hnodup _ _
          hcurr_mem hprev_mem (hsame.symm)]
        simp only [if_pos hcase]
      · rw [if_neg hcase]
        rw [Bool.not_eq_true', are_messages_adjacent_iff msgs hnodup _ _
          hprev_mem hcurr_mem hsame]
        simp only [if_neg hcase]
        constructor
        · rintro ⟨m3, hm3, ht3, hl1, hl2⟩
          exact ⟨m3, hm3, by rw [← hsame]; exact ht3, hl1, hl2⟩
        · rintro ⟨m3, hm3, ht3, hl1, hl2⟩
          exact ⟨m3, hm3, by rw [hsame]; exact ht3, hl1, hl2⟩

theorem c4_scrapbook_discontinuity_witness :
    ((list_scrapbook_messages wScrapMsgs wScrapTags wScrapThreads "T"
        none none 10).get ⟨1, by decide⟩).is_discontinuous = true ↔
      ∃ m3 ∈ wScrapMsgs,
        m3.thread_id = ((list_scrapbook_messages wScrapMsgs wScrapTags
            wScrapThreads "T" none none 10).get ⟨1, by decide⟩).message.thread_id ∧
        (if coalesce_ts ((list_scrapbook_messages wScrapMsgs wScrapTags
              wScrapThreads "T" none none 10).get ⟨1, by decide⟩).message
            < coalesce_ts ((list_scrapbook_messages wScrapMsgs wScrapTags
              wScrapThreads "T" none none 10).get ⟨0, by decide⟩).message
         then timelineLt ((list_scrapbook_messages wScrapMsgs wScrapTags
                wScrapThreads "T" none none 10).get ⟨1, by decide⟩).message m3 = true ∧
              timelineLt m3 ((list_scrapbook_messages wScrapMsgs wScrapTags
                wScrapThreads "T" none none 10).get ⟨0, by decide⟩).message = true
         else timelineLt ((list_scrapbook_messages wScrapMsgs wScrapTags
                wScrapThreads "T" none none 10).get ⟨0, by decide⟩).message m3 = true ∧
              timelineLt m3 ((list_scrapbook_messages wScrapMsgs wScrapTags
                wScrapThreads "T" none none 10).get ⟨1, by decide⟩).message = true) :=
  ((c4_scrapbook_discontinuity wScrapMsgs wScrapTags wScrapThreads "T"
      none none 10 (by decide)).2 0 (by decide)).2 (by decide)

/-! ## C5: import duplicate detection -/

/-- C5: the claim is false as a description of the code's behaviour.  The
duplicate check itself only rejects with the `already loaded` error when
a `status = 'success'` row shares the source_hash — but migration 5's
UNIQUE index on `imports(source_hash)` is unconditional, so when only a
`status = 'failed'` row shares the hash the promised insert of a new
`running` row fails with a UNIQUE-constraint error instead of
succeeding: a crashed import permanently blocks re-importing the same
backup.  With no matching row at all the insert does succeed. -/
theorem c5_failed_import_blocks_reimport :
    import_backup_duplicate_check [⟨"i1", "h", "failed"⟩] "h" "i2"
        = Except.error "UNIQUE constraint failed: imports.source_hash" ∧
    import_backup_duplicate_check [⟨"i1", "h", "failed"⟩] "h" "i2"
        ≠ Except.ok [⟨"i1", "h", "failed"⟩, ⟨"i2", "h", "running"⟩] ∧
    import_backup_duplicate_check [⟨"i1", "g", "success"⟩] "h" "i2"
        = Except.ok [⟨"i1", "g", "success"⟩, ⟨"i2", "h", "running"⟩] ∧
    import_backup_duplicate_check [⟨"i1", "h", "success"⟩] "h" "i2"
        = Except.error "archive already loaded for this backup" :=
  ⟨rfl, fun h => Except.noConfusion h, rfl, rfl⟩

/-! ## C9: attachment namespacing -/

/-- C9: every attachment row the import pipeline emits references its
message through the unconditionally `mms:`-namespaced id
`mms:<foreign mid>`, and its own id is `att:<message_id>:<sha256>` —
regardless of whether the foreign part's message came from the `sms` or
the `mms` table. -/
theorem c9_attachments_mms_namespaced (fsExists : String → Bool)
    (copyResult : String → Option (String × Int × String))
    (jobs : List AttachmentJob) :
    ∀ row ∈ map_attachments_rows fsExists copyResult jobs,
      ∃ job ∈ jobs,
        row.message_id = "mms:" ++ toString job.mid ∧
        row.id = "att:" ++ row.message_id ++ ":" ++ row.sha256 := by
  intro row hrow
  rw [map_attachments_rows, List.mem_filterMap] at hrow
  obtain ⟨job, hjob, hmk⟩ := hrow
  refine ⟨job, hjob, ?_⟩
  by_cases hfs : fsExists job.attachment_path
  · rw [if_pos hfs] at hmk
    rcases hcp : copyResult job.attachment_path with _ | ⟨sha, size, kind⟩
    · rw [hcp] at hmk; exact absurd hmk (by simp)
    · rw [hcp] at hmk
      have hrow_eq : row = attachmentRowOfJob job sha size kind :=
        (Option.some.injEq _ _).mp hmk |>.symm
      subst hrow_eq
      exact ⟨rfl, rfl⟩
  · rw [if_neg hfs] at hmk
    exact absurd hmk (by simp)

/-- C9 witness at a concrete job list and filesystem. -/
theorem c9_attachments_mms_namespaced_witness :
    ∃ job ∈ [wJob],
      (attachmentRowOfJob wJob "sh" 3 "image").message_id
          = "mms:" ++ toString job.mid ∧
      (attachmentRowOfJob wJob "sh" 3 "image").id
          = "att:" ++ (attachmentRowOfJob wJob "sh" 3 "image").message_id
              ++ ":" ++ (attachmentRowOfJob wJob "sh" 3 "image").sha256 :=
  c9_attachments_mms_namespaced (fun _ => true)
    (fun _ => some ("sh", 3, "image")) [wJob]
    (attachmentRowOfJob wJob "sh" 3 "image") (List.mem_singleton.mpr rfl)

/-! ## C10: media cache clear vs. eviction queue -/

/-- C10: `MediaCache::clear` removes every cached preview file, empties
the entry map, and silently empties the pending eviction queue: for
every cache state, `drain_evictions` immediately after `clear` returns
the empty list, even though `clear` did remove the entries it reports
in its second component. -/
theorem c10_clear_empties_evictions (c : MediaCache) :
    c.clear.1.entries = [] ∧ c.clear.1.evicted = [] ∧
    c.clear.1.drain_evictions.1 = [] ∧
    c.clear.2 = c.entries.map (fun e => e.2.path) := by
  refine ⟨rfl, rfl, rfl, rfl⟩

/-! ## C8: set_message_tags -/

/-- C8, the claim as frozen is false: `set_message_tags` runs its DELETE
and INSERTs with no surrounding transaction, so when an INSERT fails —
here `"t2"` names no `tags` row, so its foreign key fails — the
message's prior assignment (`t0`) is already deleted and the partial
insert (`t1`) is already committed: the error leaves the state changed
and the prior assignments lost. -/
theorem c8_no_rollback_counterexample :
    (set_message_tags ⟨["m"], ["t0", "t1"], [⟨"m", "t0", 5⟩]⟩
        "m" ["t1", "t2"] 77).2 = some "constraint failed" ∧
    (set_message_tags ⟨["m"], ["t0", "t1"], [⟨"m", "t0", 5⟩]⟩
        "m" ["t1", "t2"] 77).1.message_tags = [⟨"m", "t1", 77⟩] ∧
    [⟨"m", "t1", 77⟩] ≠ ([⟨"m", "t0", 5⟩] : List MessageTagRow) := by
  refine ⟨rfl, rfl, by decide⟩

/-- The insert loop of `set_message_tags` on a state whose `message_tags`
holds no row pairing the message with any of the remaining tag ids:
every INSERT succeeds and the rows are appended in order, all sharing
`now`. -/
theorem setTagsLoop_ok (mid : String) (now : Int) :
    ∀ (ts : List String) (db : TagDbState),
    mid ∈ db.message_ids → (∀ t ∈ ts, t ∈ db.tag_ids) → ts.Nodup →
    (∀ r ∈ db.message_tags, r.message_id = mid → r.tag_id ∉ ts) →
    setTagsLoop mid now db ts
      = ({ db with message_tags :=
            db.message_tags ++ ts.map fun t => ⟨mid, t, now⟩ }, none) := by
  intro ts
  induction ts with
  | nil =>
    intro db _ _ _ _
    simp [setTagsLoop]
  | cons t ts ih =>
    intro db hmid hall hnd hclean
    have hins : insert_message_tag db mid t now
        = some { db with message_tags := db.message_tags ++ [⟨mid, t, now⟩] } := by
      rw [insert_message_tag, if_pos]
      refine ⟨hmid, hall t (by simp), ?_⟩
      intro hany
      rw [List.any_eq_true] at hany
      obtain ⟨r, hr, hrt⟩ := hany
      rw [Bool.and_eq_true, decide_eq_true_eq, decide_eq_true_eq] at hrt
      exact hclean r hr hrt.1 (by rw [hrt.2]; simp)
    have hclean2 : ∀ r ∈ db.message_tags ++ [(⟨mid, t, now⟩ : MessageTagRow)],
        r.message_id = mid → r.tag_id ∉ ts := by
      intro r hr hrm
      rw [List.mem_append] at hr
      rcases hr with hr | hr
      · exact fun hmem => hclean r hr hrm (by simp [hmem])
      · have hrt : r = ⟨mid, t, now⟩ := by simpa using hr
        subst hrt
        exact (List.nodup_cons.mp hnd).1
    have hstep := ih { db with message_tags := db.message_tags ++ [⟨mid, t, now⟩] }
      hmid (fun u hu => hall u (by simp [hu])) hnd.of_cons hclean2
    rw [setTagsLoop, hins]
    show setTagsLoop mid now
        { db with message_tags := db.message_tags ++ [⟨mid, t, now⟩] } ts = _
    rw [hstep]
    simp [List.append_assoc]

/-- C8 (amended): when every given tag id names an existing tag, the tag
ids are distinct, and the message exists, `set_message_tags` succeeds
and replaces the message's assignments: the final `message_tags` is the
other messages' rows followed by one row per given tag id, all sharing
the single `now` timestamp.  (On failure the state is NOT restored — see
the counterexample — so atomicity holds only for the success path.) -/
theorem c8_set_message_tags_success (db : TagDbState) (message_id : String)
    (tag_ids : List String) (now : Int)
    (hmid : message_id ∈ db.message_ids)
    (hall : ∀ t ∈ tag_ids, t ∈ db.tag_ids)
    (hnd : tag_ids.Nodup) :
    set_message_tags db message_id tag_ids now
      = ({ db with message_tags :=
            (db.message_tags.filter fun r => ! decide (r.message_id = message_id))
              ++ tag_ids.map fun t => ⟨message_id, t, now⟩ }, none) := by
  rw [set_message_tags]
  exact setTagsLoop_ok message_id now tag_ids _ hmid hall hnd
    (fun r hr hrm => absurd hrm (by
      rw [List.mem_filter] at hr
      simpa using hr.2))

/-- C8 witness: a concrete successful replacement. -/
theorem c8_set_message_tags_success_witness :
    set_message_tags ⟨["m"], ["t0", "t1"], [⟨"m", "t0", 5⟩, ⟨"x", "t0", 9⟩]⟩
        "m" ["t1"] 77
      = (⟨["m"], ["t0", "t1"], [⟨"x", "t0", 9⟩, ⟨"m", "t1", 77⟩]⟩, none) :=
  c8_set_message_tags_success ⟨["m"], ["t0", "t1"], [⟨"m", "t0", 5⟩, ⟨"x", "t0", 9⟩]⟩
    "m" ["t1"] 77 (by decide) (by decide) (by decide)

/-! ## C7: media orderings -/

/-- Totality of the strict id order, with equality as the third case. -/
theorem idLt_total_or (a b : String) :
    idLt a b = true ∨ a = b ∨ idLt b a = true := by
  cases h1 : idLt a b
  · cases h2 : idLt b a
    · exact Or.inr (Or.inl (idLt_connex a b h1 h2))
    · exact Or.inr (Or.inr rfl)
  · exact Or.inl rfl

/-- Transitivity of `id ASC` as a disjunction. -/
theorem idLe_trans_or (a b c : String)
    (h1 : idLt a b = true ∨ a = b) (h2 : idLt b c = true ∨ b = c) :
    idLt a c = true ∨ a = c := by
  rcases h1 with h1 | h1 <;> rcases h2 with h2 | h2
  · exact Or.inl (idLt_trans _ _ _ h1 h2)
  · exact Or.inl (h2 ▸ h1)
  · exact Or.inl (h1 ▸ h2)
  · exact Or.inr (h1.trans h2)

/-- Totality of `id ASC` in its Boolean form. -/
theorem idLe_total (a b : String) :
    (idLt a b || decide (a = b)) = true ∨ (idLt b a || decide (b = a)) = true := by
  rcases idLt_total_or a b with h | h | h
  · exact Or.inl (by rw [h]; rfl)
  · exact Or.inl (by rw [h]; simp)
  · exact Or.inr (by rw [h]; rfl)

theorem mediaLe_total (x y : AttachmentRow × MessageRow) :
    mediaLe x y = true ∨ mediaLe y x = true := by
  unfold mediaLe
  rcases x.2.sent_at with _ | a <;> rcases y.2.sent_at with _ | b
  · exact idLe_total x.1.id y.1.id
  · exact Or.inr rfl
  · exact Or.inl rfl
  · rcases lt_trichotomy a b with h | h | h
    · refine Or.inr ?_
      show (decide (a < b) || (decide (b = a) && (idLt y.1.id x.1.id
        || decide (y.1.id = x.1.id)))) = true
      rw [decide_eq_true h]
      rfl
    · subst h
      rcases idLe_total x.1.id y.1.id with h2 | h2
      · refine Or.inl ?_
        show (decide (a < a) || (decide (a = a) && (idLt x.1.id y.1.id
          || decide (x.1.id = y.1.id)))) = true
        rw [h2]
        simp
      · refine Or.inr ?_
        show (decide (a < a) || (decide (a = a) && (idLt y.1.id x.1.id
          || decide (y.1.id = x.1.id)))) = true
        rw [h2]
        simp
    · refine Or.inl ?_
      show (decide (b < a) || (decide (a = b) && (idLt x.1.id y.1.id
        || decide (x.1.id = y.1.id)))) = true
      rw [decide_eq_true h]
      rfl

theorem mediaLe_trans (x y z : AttachmentRow × MessageRow)
    (h1 : mediaLe x y = true) (h2 : mediaLe y z = true) :
    mediaLe x z = true := by
  unfold mediaLe at h1 h2 ⊢
  rcases hx : x.2.sent_at with _ | a <;> rcases hy : y.2.sent_at with _ | b <;>
    rcases hz : z.2.sent_at with _ | c
  · have h1r : (idLt x.1.id y.1.id || decide (x.1.id = y.1.id)) = true := by
      rw [hx, hy] at h1; exact h1
    have h2r : (idLt y.1.id z.1.id || decide (y.1.id = z.1.id)) = true := by
      rw [hy, hz] at h2; exact h2
    show (idLt x.1.id z.1.id || decide (x.1.id = z.1.id)) = true
    simp only [Bool.or_eq_true, decide_eq_true_eq] at h1r h2r ⊢
    exact idLe_trans_or _ _ _ h1r h2r
  · exact absurd (show (false : Bool) = true by rw [hy, hz] at h2; exact h2)
      Bool.false_ne_true
  · exact absurd (show (false : Bool) = true by rw [hx, hy] at h1; exact h1)
      Bool.false_ne_true
  · exact absurd (show (false : Bool) = true by rw [hx, hy] at h1; exact h1)
      Bool.false_ne_true
  · rfl
  · exact absurd (show (false : Bool) = true by rw [hy, hz] at h2; exact h2)
      Bool.false_ne_true
  · rfl
  · have h1r : (decide (b < a) || (decide (a = b) && (idLt x.1.id y.1.id
        || decide (x.1.id = y.1.id)))) = true := by rw [hx, hy] at h1; exact h1
    have h2r : (decide (c < b) || (decide (b = c) && (idLt y.1.id z.1.id
        || decide (y.1.id = z.1.id)))) = true := by rw [hy, hz] at h2; exact h2
    show (decide (c < a) || (decide (a = c) && (idLt x.1.id z.1.id
        || decide (x.1.id = z.1.id)))) = true
    simp only [Bool.or_eq_true, Bool.and_eq_true, decide_eq_true_eq] at h1r h2r ⊢
    rcases h1r with h1r | ⟨he1, hr1⟩ <;> rcases h2r with h2r | ⟨he2, hr2⟩
    · exact Or.inl (by omega)
    · exact Or.inl (by omega)
    · exact Or.inl (by omega)
    · exact Or.inr ⟨by omega, idLe_trans_or _ _ _ hr1 hr2⟩

theorem threadMediaLe_total (sort : String) (x y : AttachmentRow × MessageRow) :
    threadMediaLe sort x y = true ∨ threadMediaLe sort y x = true := by
  unfold threadMediaLe
  split_ifs <;> simp only [Bool.or_eq_true, Bool.and_eq_true, decide_eq_true_eq]
  · omega
  · omega
  · rcases lt_trichotomy (coalesce_ts x.2) (coalesce_ts y.2) with h | h | h
    · exact Or.inl (Or.inl h)
    · rcases idLt_total_or x.1.id y.1.id with h2 | h2 | h2
      · exact Or.inl (Or.inr ⟨h, Or.inl h2⟩)
      · exact Or.inl (Or.inr ⟨h, Or.inr h2⟩)
      · exact Or.inr (Or.inr ⟨h.symm, Or.inl h2⟩)
    · exact Or.inr (Or.inl h)
  · rcases lt_trichotomy (coalesce_ts x.2) (coalesce_ts y.2) with h | h | h
    · exact Or.inr (Or.inl h)
    · rcases idLt_total_or x.1.id y.1.id with h2 | h2 | h2
      · exact Or.inl (Or.inr ⟨h, Or.inl h2⟩)
      · exact Or.inl (Or.inr ⟨h, Or.inr h2⟩)
      · exact Or.inr (Or.inr ⟨h.symm, Or.inl h2⟩)
    · exact Or.inl (Or.inl h)

theorem threadMediaLe_trans (sort : String) (x y z : AttachmentRow × MessageRow)
    (h1 : threadMediaLe sort x y = true) (h2 : threadMediaLe sort y z = true) :
    threadMediaLe sort x z = true := by
  unfold threadMediaLe at h1 h2 ⊢
  split_ifs at h1 h2 ⊢ <;>
    simp only [Bool.or_eq_true, Bool.and_eq_true, decide_eq_true_eq] at h1 h2 ⊢
  · omega
  · omega
  · rcases h1 with h1 | ⟨he1, hr1⟩ <;> rcases h2 with h2 | ⟨he2, hr2⟩
    · exact Or.inl (by omega)
    · exact Or.inl (by omega)
    · exact Or.inl (by omega)
    · exact Or.inr ⟨by omega, idLe_trans_or _ _ _ hr1 hr2⟩
  · rcases h1 with h1 | ⟨he1, hr1⟩ <;> rcases h2 with h2 | ⟨he2, hr2⟩
    · exact Or.inl (by omega)
    · exact Or.inl (by omega)
    · exact Or.inl (by omega)
    · exact Or.inr ⟨by omega, idLe_trans_or _ _ _ hr1 hr2⟩

/-- C7, the claim as frozen is false on both counts.  First,
`list_media` orders by the raw `m.sent_at DESC NULLS LAST`, not by
`sort_ts`: message `c7M1` has `sent_at = NULL` but stored `sort_ts` 100,
so under the claimed order its attachment `a1` would precede `a2`
(whose message's `sort_ts` is 5), yet the code sorts `a2` first.
Second, the `size_asc` mode of `list_thread_media` has no secondary key
on the attachment id: the two same-size, same-date attachments come out
in whichever order the join produced them — the same row set yields
both id orders — so no deterministic secondary order on id exists. -/
theorem c7_media_ordering_counterexample :
    ((list_media [c7A1, c7A2] [c7M1, c7M2] none 10 0).map fun x => x.1.id)
        = ["a2", "a1"] ∧
    coalesce_ts c7M2 < coalesce_ts c7M1 ∧
    ((list_thread_media [c7B1, c7B2] [c7M3] "t" none none none
        "size_asc" 10 0).map fun x => x.1.id) = ["b1", "b2"] ∧
    ((list_thread_media [c7B2, c7B1] [c7M3] "t" none none none
        "size_asc" 10 0).map fun x => x.1.id) = ["b2", "b1"] := by
  refine ⟨rfl, by decide, rfl, rfl⟩

/-- C7 (amended): `list_media` returns its rows sorted by
`m.sent_at DESC NULLS LAST` with `a.id ASC` breaking ties — NULL
`sent_at` rows sort last even when their stored `sort_ts` is large — and
`list_thread_media` returns its rows sorted by the selected mode's keys:
`size_asc`/`size_desc` by `IFNULL(a.size_bytes, 0)` then message date
DESC with NO id tie-break, `date_asc`/`date_desc` by message date with
`a.id ASC` as the secondary key. -/
theorem c7_media_orderings (atts : List AttachmentRow) (msgs : List MessageRow)
    (thread_id : Option String) (tid : String) (from_ts to_ts : Option Int)
    (size_bucket : Option Int) (sort : String) (limit offset : Nat) :
    (list_media atts msgs thread_id limit offset).Pairwise
      (fun a b => mediaLe a b = true) ∧
    (list_thread_media atts msgs tid from_ts to_ts size_bucket sort
        limit offset).Pairwise
      (fun a b => threadMediaLe sort a b = true) := by
  constructor
  · haveI : IsTotal (AttachmentRow × MessageRow)
        (fun a b => mediaLe a b = true) := ⟨mediaLe_total⟩
    haveI : IsTrans (AttachmentRow × MessageRow)
        (fun a b => mediaLe a b = true) := ⟨mediaLe_trans⟩
    exact List.Pairwise.sublist
      ((List.take_sublist _ _).trans (List.drop_sublist _ _))
      (List.sorted_insertionSort (fun a b => mediaLe a b = true) _)
  · haveI : IsTotal (AttachmentRow × MessageRow)
        (fun a b => threadMediaLe sort a b = true) := ⟨threadMediaLe_total sort⟩
    haveI : IsTrans (AttachmentRow × MessageRow)
        (fun a b => threadMediaLe sort a b = true) := ⟨threadMediaLe_trans sort⟩
    exact List.Pairwise.sublist
      ((List.take_sublist _ _).trans (List.drop_sublist _ _))
      (List.sorted_insertionSort (fun a b => threadMediaLe sort a b = true) _)

end GoldenThread
